/-
  Verification development for the type-theoretic ontology synthesis library.

  Shallow embedding of src/type_synthesis/synth_lib.py, executor.py and
  provenance.py.  Python float costs and confidences are modelled by an
  arbitrary linear ordered commutative ring K (the algorithms only use
  addition, subtraction, multiplication and comparisons); concrete
  instances in witnesses use K = Int.  Python dictionaries are modelled by
  insertion-ordered association lists, and the single while loop of the
  backward search is modelled with an explicit fuel parameter: every
  theorem below is proved for every fuel value, hence holds of any
  terminating run of the Python loop.  Exceptions are modelled by
  Except String.
-/
import Mathlib

namespace TypeSynth

/-- Base type definition (synth_lib.TypeDef): a named type with attributes. -/
structure TypeDef where
  name : String
  attrs : List (String × String)
deriving Repr

/-- Product (tuple) type (synth_lib.ProductType). -/
structure ProductType where
  name : String
  components : List String
deriving Repr

/-- Domain of a function: either a single type name or an ordered list of
type names (synth_lib.Func.dom is a str or a list of str). -/
inductive Dom where
  | single (t : String)
  | multi (ts : List String)
deriving Repr

/-- Python Func.is_multiarg: true iff dom is a list. -/
def Dom.isMulti : Dom → Bool
  | .single _ => false
  | .multi _ => true

/-- Python Func.dom_types: the domain as a list. -/
def Dom.domTypes : Dom → List String
  | .single t => [t]
  | .multi ts => ts

/-- The domain type of a single-argument function (the Python code reads
f.dom directly after checking not f.is_multiarg). -/
def Dom.singleTy : Dom → String
  | .single t => t
  | .multi _ => ""

/-- The source-type string stored by make_func: the dom when single, the
str() of the list when multi (the exact text of the multi case is never
inspected by the algorithms). -/
def Dom.srcStr : Dom → String
  | .single t => t
  | .multi ts => toString ts

section ExecutorData

/-- Runtime value (Python Any as it flows through the executor): numbers,
strings, lists, tuples, string-keyed records, and None. -/
inductive Value (K : Type) where
  | num (x : K)
  | str (s : String)
  | vlist (vs : List (Value K))
  | vtup (vs : List (Value K))
  | vdict (fields : List (String × Value K))
  | vnone

/-- Implementation descriptor (Python Func.impl, a string-keyed dict).
Each field models dict.get with the default used by the executor; the
field ty is the value of the "type" key when present (impl.get("type",
"identity") yields "identity" when it is absent, i.e. for a missing or
empty descriptor). -/
structure Impl (K : Type) where
  ty : Option String
  query : String
  expr : String
  method : String
  url : String
  builtinName : String
  factor : K
  schema : Value K
  templateStr : String
  mappings : List (String × String)

/-- The empty implementation descriptor (Python impl defaulting to an
empty dict). -/
def Impl.empty (K : Type) [LinearOrderedCommRing K] : Impl K :=
  ⟨Option.none, "", "", "GET", "", "identity", 1, Value.vnone, "", []⟩

/-- Python impl.get("type", "identity"). -/
def Impl.tag {K : Type} (i : Impl K) : String :=
  i.ty.getD "identity"

end ExecutorData

/-- Function record (synth_lib.Func). -/
structure Func (K : Type) where
  id : String
  dom : Dom
  cod : String
  cost : K
  conf : K
  impl : Impl K

/-- Catalog (synth_lib.Catalog).  The by_cod index is materialised by
funcsReturning below: since add_func appends each function to both the
list and its index bucket, the bucket for a codomain equals the ordered
filter of the function list. -/
structure Catalog (K : Type) where
  types : List (String × TypeDef)
  productTypes : List (String × ProductType)
  funcs : List (Func K)

/-- Python Catalog.funcs_returning: functions whose codomain is the given
type, in insertion order. -/
def Catalog.funcsReturning {K : Type} (c : Catalog K) (t : String) : List (Func K) :=
  c.funcs.filter (fun f => f.cod == t)

/-- Proof term (synth_lib.ProofNode).  The comp and tup constructors carry
the source and target type strings that the Python constructor functions
store in the node. -/
inductive ProofNode (K : Type) where
  | identity (ty : String)
  | funcNode (f : Func K)
  | comp (children : List (ProofNode K)) (src tgt : String)
  | tup (children : List (ProofNode K)) (src tgt : String)
  | proj (i : Nat)

/-- The stored source type of a proof node (Python ProofNode.source_type;
the dataclass default for proj is the empty string). -/
def ProofNode.srcTy {K : Type} : ProofNode K → String
  | .identity t => t
  | .funcNode f => f.dom.srcStr
  | .comp _ s _ => s
  | .tup _ s _ => s
  | .proj _ => ""

/-- The stored target type of a proof node (Python ProofNode.target_type). -/
def ProofNode.tgtTy {K : Type} : ProofNode K → String
  | .identity t => t
  | .funcNode f => f.cod
  | .comp _ _ t => t
  | .tup _ _ t => t
  | .proj _ => ""

/-- Python make_identity. -/
def make_identity {K : Type} (ty : String) : ProofNode K :=
  ProofNode.identity ty

/-- Python make_func. -/
def make_func {K : Type} (f : Func K) : ProofNode K :=
  ProofNode.funcNode f

/-- The flattening loop of make_composition: existing compositions are
expanded and identities dropped. -/
def compFlatten {K : Type} (proofs : List (ProofNode K)) : List (ProofNode K) :=
  proofs.foldl
    (fun acc p =>
      match p with
      | ProofNode.comp cs _ _ => acc ++ cs
      | ProofNode.identity _ => acc
      | q => acc ++ [q])
    []

/-- Python make_composition: raises ValueError on an empty list (modelled
as Except.error), returns a single proof unchanged, otherwise flattens and
builds a composition node. -/
def make_composition {K : Type} (proofs : List (ProofNode K)) : Except String (ProofNode K) :=
  match proofs with
  | [] => Except.error ("Empty composition")
  | [p] => Except.ok p
  | p :: q :: rest =>
    match compFlatten (p :: q :: rest) with
    | [] => Except.ok (ProofNode.identity p.srcTy)
    | [r] => Except.ok r
    | r :: r2 :: rs =>
      Except.ok (ProofNode.comp (r :: r2 :: rs) r.srcTy ((r2 :: rs).getLastD r2).tgtTy)

/-- Python make_tuple. -/
def make_tuple {K : Type} (proofs : List (ProofNode K)) : ProofNode K :=
  ProofNode.tup proofs
    ("(" ++ String.intercalate ", " (proofs.map ProofNode.srcTy) ++ ")")
    ("(" ++ String.intercalate ", " (proofs.map ProofNode.tgtTy) ++ ")")

/-- Linear synthesis result (synth_lib.SynthesisResult). -/
structure SynthesisResult (K : Type) where
  cost : K
  confidence : K
  path : List (Func K)
  proof : ProofNode K

/-- DAG node (synth_lib.DAGNode); the runtime value field is not part of
the planning data and is omitted. -/
structure DAGNode (K : Type) where
  id : String
  node_type : String
  type_name : String
  func : Option (Func K)
  inputs : List String
  path : List (Func K)

/-- DAG plan (synth_lib.SynthesisDAG); nodes is the insertion-ordered
dictionary of nodes. -/
structure SynthesisDAG (K : Type) where
  nodes : List (String × DAGNode K)
  source_nodes : List String
  goal_node : String
  total_cost : K
  total_confidence : K
  proof : ProofNode K

/-- Insert into an insertion-ordered dictionary: replacing in place when
the key is present (Python dict assignment keeps the original position),
appending otherwise. -/
def dictInsert {β : Type} : List (String × β) → String → β → List (String × β)
  | [], k, v => [(k, v)]
  | (k0, v0) :: t, k, v =>
    if k0 = k then (k, v) :: t else (k0, v0) :: dictInsert t k v

/-- Sum of the costs of the functions of a path. -/
def path_cost {K : Type} [LinearOrderedCommRing K] (p : List (Func K)) : K :=
  (p.map Func.cost).sum

/-- Product of the confidences of the functions of a path. -/
def path_conf {K : Type} [LinearOrderedCommRing K] (p : List (Func K)) : K :=
  (p.map Func.conf).prod

section Sorting

variable {K : Type} [LinearOrderedCommRing K] {α : Type}

/-- Ordered insertion used to model Python sorted(..., key=...), which is
a stable ascending sort. -/
def insertByKey (key : α → K) (x : α) : List α → List α
  | [] => [x]
  | y :: ys => if key x ≤ key y then x :: y :: ys else y :: insertByKey key x ys

/-- Stable ascending sort by a numeric key (Python sorted). -/
def sortByKey (key : α → K) (l : List α) : List α :=
  l.foldr (insertByKey key) []

end Sorting

section BackwardSearch

variable {K : Type} [LinearOrderedCommRing K]

/-- Priority-queue entry of synthesize_backward: cumulative cost, a
monotone tiebreak counter, the current type, the reversed path so far and
the cumulative confidence. -/
structure PQEntry (K : Type) where
  cost : K
  counter : Nat
  cur_type : String
  path : List (Func K)
  conf : K

/-- The heapq ordering on entries: lexicographic on (cost, counter).
Counters are pairwise distinct in every reachable queue, so the tuple
comparison never inspects the remaining components, exactly as in the
Python code. -/
def entryLE (a b : PQEntry K) : Bool :=
  if a.cost < b.cost then true
  else if b.cost < a.cost then false
  else a.counter ≤ b.counter

/-- Remove the minimal entry (leftmost among equals) from the queue;
models heappop since pops of a binary heap deliver entries in key order. -/
def popMin : List (PQEntry K) → Option (PQEntry K × List (PQEntry K))
  | [] => Option.none
  | e :: es =>
    match popMin es with
    | Option.none => some (e, [])
    | some (m, rest) =>
      if entryLE e m then some (e, es) else some (m, e :: rest)

/-- Expansion step of synthesize_backward (the for loop over
funcs_returning): skip multi-argument functions, skip pushes beyond
max_cost, and otherwise push the extended entry with a fresh counter. -/
def sbExpand (cat : Catalog K) (maxCost : K) (e : PQEntry K) (counter : Nat) :
    List (PQEntry K) × Nat :=
  (cat.funcsReturning e.cur_type).foldl
    (fun acc f =>
      if f.dom.isMulti then acc
      else
        let newCost := e.cost + f.cost
        if newCost > maxCost then acc
        else
          let c := acc.2 + 1
          (acc.1 ++ [⟨newCost, c, f.dom.singleTy, f :: e.path, e.conf * f.conf⟩], c))
    ([], counter)

/-- The while loop of synthesize_backward, with an explicit fuel counter
bounding the number of iterations; exhausted fuel returns the results
accumulated so far, so every property proved for all fuel values holds of
any terminating run. -/
def sbLoop (cat : Catalog K) (srcType : String) (maxCost : K) (maxResults : Nat) :
    Nat → List (PQEntry K) → Nat → List (String × K) → List (SynthesisResult K) →
    Except String (List (SynthesisResult K))
  | 0, _, _, _, results => Except.ok results
  | Nat.succ fuel, pq, counter, visited, results =>
    if pq.isEmpty || maxResults ≤ results.length then Except.ok results
    else
      match popMin pq with
      | Option.none => Except.ok results
      | some (e, pq2) =>
        if e.cur_type = srcType then
          match
            (match e.path with
             | [] => Except.ok (make_identity srcType)
             | _ :: _ => make_composition (e.path.map make_func)) with
          | Except.error msg => Except.error msg
          | Except.ok proof =>
            sbLoop cat srcType maxCost maxResults fuel pq2 counter visited
              (results ++ [⟨e.cost, e.conf, e.path, proof⟩])
        else
          if (match List.lookup e.cur_type visited with
              | some b => decide (b ≤ e.cost)
              | Option.none => false) then
            sbLoop cat srcType maxCost maxResults fuel pq2 counter visited results
          else
            let visited2 := dictInsert visited e.cur_type e.cost
            let ex := sbExpand cat maxCost e counter
            sbLoop cat srcType maxCost maxResults fuel (pq2 ++ ex.1) ex.2 visited2 results

/-- The search phase of synthesize_backward: results in discovery (pop)
order, before the final sort. -/
def sbSearch (cat : Catalog K) (srcType goalType : String) (maxCost : K)
    (maxResults fuel : Nat) : Except String (List (SynthesisResult K)) :=
  sbLoop cat srcType maxCost maxResults fuel [⟨0, 0, goalType, [], 1⟩] 0 [] []

/-- Python synthesize_backward: run the best-first search and return the
results sorted ascending by cost (Python sorted is stable, modelled by
sortByKey). -/
def synthesize_backward (cat : Catalog K) (srcType goalType : String) (maxCost : K)
    (maxResults fuel : Nat) : Except String (List (SynthesisResult K)) :=
  (sbSearch cat srcType goalType maxCost maxResults fuel).map
    (sortByKey SynthesisResult.cost)

end BackwardSearch

section MultiargSynthesis

variable {K : Type} [LinearOrderedCommRing K]

/-- The zero-cost identity SynthesisResult attached to a direct source
match (SynthesisResult(cost=0, confidence=1.0, path=[],
proof=make_identity(required_type))). -/
def identityResult (rt : String) : SynthesisResult K :=
  ⟨0, 1, [], make_identity rt⟩

/-- The path-search fallback of the argument loops: iterate over the
sources in insertion order and take the best result of the first source
whose backward search within the budget succeeds. -/
def firstSearchArg (cat : Catalog K) (rt : String) (budget : K) (fuel : Nat) :
    List (String × String) → Except String (Option (String × SynthesisResult K))
  | [] => Except.ok Option.none
  | (sid, st) :: tl =>
    match synthesize_backward cat st rt budget 10 fuel with
    | Except.error e => Except.error e
    | Except.ok [] => firstSearchArg cat rt budget fuel tl
    | Except.ok (r :: _) => Except.ok (some (sid, r))

/-- The argument loop of _try_synthesize_multiarg_func: for each required
type, first a direct source of exactly that type not yet in used_sources
(first in insertion order), else the path-search fallback, whose chosen
source is not added to used_sources (only direct matches are).  Returns
none when an argument cannot be supplied. -/
def multiargLoop (cat : Catalog K) (sources : List (String × String))
    (remaining : K) (fuel : Nat) :
    List String → List String → K → K → List (String × SynthesisResult K) →
    Except String (Option (List (String × SynthesisResult K) × K × K))
  | [], _, tc, cf, acc => Except.ok (some (acc, tc, cf))
  | rt :: rest, used, tc, cf, acc =>
    match sources.find? (fun sv => sv.2 == rt && !(used.contains sv.1)) with
    | some sv =>
      multiargLoop cat sources remaining fuel rest (used ++ [sv.1]) tc cf
        (acc ++ [(sv.1, identityResult rt)])
    | Option.none =>
      match firstSearchArg cat rt (remaining - tc) fuel sources with
      | Except.error e => Except.error e
      | Except.ok Option.none => Except.ok Option.none
      | Except.ok (some (sid, r)) =>
        multiargLoop cat sources remaining fuel rest used (tc + r.cost)
          (cf * r.confidence) (acc ++ [(sid, r)])

/-- The per-argument node construction of _build_dag_from_multiarg:
returns the transform nodes (for arguments with a non-trivial path), the
input node ids in argument order, and the argument proofs. -/
def multiargNodes (g : Func K) :
    Nat → List (String × SynthesisResult K) →
    List (String × DAGNode K) × List String × List (ProofNode K)
  | _, [] => ([], [], [])
  | i, (sid, res) :: rest =>
    let t := multiargNodes g (i + 1) rest
    let rt := g.dom.domTypes.getD i ""
    match res.path with
    | [] => (t.1, sid :: t.2.1, make_identity rt :: t.2.2)
    | _ :: _ =>
      let nid := "transform_" ++ rt ++ "_" ++ toString i
      ((nid, ⟨nid, "transform", rt, res.path.getLast?, [sid], res.path⟩) :: t.1,
       nid :: t.2.1, res.proof :: t.2.2)

/-- Python _build_dag_from_multiarg: source nodes for every source, a
transform node per non-trivial argument path, a single goal node applying
the multi-argument function (with the function attached but an empty
path), and proof Compose([Tuple(arg proofs), Func(g)]). -/
def build_dag_from_multiarg (sources : List (String × String)) (goalType : String)
    (g : Func K) (argResults : List (String × SynthesisResult K))
    (totalCost totalConfidence : K) : Except String (SynthesisDAG K) :=
  let base := sources.foldl
    (fun acc sv => dictInsert acc sv.1 ⟨sv.1, "source", sv.2, Option.none, [], []⟩) []
  let t := multiargNodes g 0 argResults
  let withT := t.1.foldl (fun acc kn => dictInsert acc kn.1 kn.2) base
  let goalNode : DAGNode K := ⟨"goal", "goal", goalType, some g, t.2.1, []⟩
  let nodes := dictInsert withT "goal" goalNode
  match make_composition [make_tuple t.2.2, make_func g] with
  | Except.error m => Except.error m
  | Except.ok fullProof =>
    Except.ok ⟨nodes, sources.map (fun sv => sv.1), "goal", totalCost,
      totalConfidence, fullProof⟩

/-- Python _try_synthesize_multiarg_func: run the argument loop with the
budget max_cost - g.cost, total cost and confidence seeded with those of
g, then build the DAG. -/
def try_synthesize_multiarg_func (cat : Catalog K) (sources : List (String × String))
    (goalType : String) (g : Func K) (maxCost : K) (fuel : Nat) :
    Except String (Option (SynthesisDAG K)) :=
  match multiargLoop cat sources (maxCost - g.cost) fuel g.dom.domTypes [] g.cost g.conf [] with
  | Except.error e => Except.error e
  | Except.ok Option.none => Except.ok Option.none
  | Except.ok (some (args, tc, cf)) =>
    match build_dag_from_multiarg sources goalType g args tc cf with
    | Except.error e => Except.error e
    | Except.ok d => Except.ok (some d)

/-- The component loop of _try_synthesize_via_product: like the argument
loop but with no used_sources bookkeeping at all (a direct match is the
first source of the component type, consumed or not). -/
def productLoop (cat : Catalog K) (sources : List (String × String))
    (remaining : K) (fuel : Nat) :
    List String → K → K → List (String × String × SynthesisResult K) →
    Except String (Option (List (String × String × SynthesisResult K) × K × K))
  | [], tc, cf, acc => Except.ok (some (acc, tc, cf))
  | comp :: rest, tc, cf, acc =>
    match sources.find? (fun sv => sv.2 == comp) with
    | some sv =>
      productLoop cat sources remaining fuel rest tc cf
        (acc ++ [(sv.1, comp, identityResult comp)])
    | Option.none =>
      match firstSearchArg cat comp (remaining - tc) fuel sources with
      | Except.error e => Except.error e
      | Except.ok Option.none => Except.ok Option.none
      | Except.ok (some (sid, r)) =>
        productLoop cat sources remaining fuel rest (tc + r.cost)
          (cf * r.confidence) (acc ++ [(sid, comp, r)])

/-- The per-component node construction of _build_dag_from_product. -/
def productNodes :
    Nat → List (String × String × SynthesisResult K) →
    List (String × DAGNode K) × List String × List (ProofNode K)
  | _, [] => ([], [], [])
  | i, (sid, comp, res) :: rest =>
    let t := productNodes (i + 1) rest
    match res.path with
    | [] => (t.1, sid :: t.2.1, make_identity comp :: t.2.2)
    | _ :: _ =>
      let nid := "transform_" ++ comp ++ "_" ++ toString i
      ((nid, ⟨nid, "transform", comp, res.path.getLast?, [sid], res.path⟩) :: t.1,
       nid :: t.2.1, res.proof :: t.2.2)

/-- Python _build_dag_from_product: source nodes, transform nodes per
non-trivial component path, and an aggregate node of the goal type whose
path is the product-to-goal path (with its first function attached). -/
def build_dag_from_product (sources : List (String × String)) (goalType : String)
    (componentResults : List (String × String × SynthesisResult K))
    (aggResult : SynthesisResult K) (totalCost totalConfidence : K) :
    Except String (SynthesisDAG K) :=
  let base := sources.foldl
    (fun acc sv => dictInsert acc sv.1 ⟨sv.1, "source", sv.2, Option.none, [], []⟩) []
  let t := productNodes 0 componentResults
  let withT := t.1.foldl (fun acc kn => dictInsert acc kn.1 kn.2) base
  let aggNode : DAGNode K :=
    ⟨"aggregate", "aggregate", goalType, aggResult.path.head?, t.2.1, aggResult.path⟩
  let nodes := dictInsert withT "aggregate" aggNode
  let tupleProof := make_tuple t.2.2
  match
    (match aggResult.path with
     | [] => Except.ok tupleProof
     | _ :: _ => make_composition [tupleProof, aggResult.proof]) with
  | Except.error m => Except.error m
  | Except.ok fullProof =>
    Except.ok ⟨nodes, sources.map (fun sv => sv.1), "aggregate", totalCost,
      totalConfidence, fullProof⟩

/-- Python _try_synthesize_via_product: a backward search from the product
type to the goal provides the aggregator; each component is then resolved
as in the multi-arg loop (without used-source bookkeeping). -/
def try_synthesize_via_product (cat : Catalog K) (sources : List (String × String))
    (goalType productName : String) (pt : ProductType) (maxCost : K) (fuel : Nat) :
    Except String (Option (SynthesisDAG K)) :=
  match synthesize_backward cat productName goalType maxCost 10 fuel with
  | Except.error e => Except.error e
  | Except.ok [] => Except.ok Option.none
  | Except.ok (agg :: _) =>
    match productLoop cat sources (maxCost - agg.cost) fuel pt.components agg.cost
        agg.confidence [] with
    | Except.error e => Except.error e
    | Except.ok Option.none => Except.ok Option.none
    | Except.ok (some (comps, tc, cf)) =>
      match build_dag_from_product sources goalType comps agg tc cf with
      | Except.error e => Except.error e
      | Except.ok d => Except.ok (some d)

/-- Python _single_path_to_dag: a two-node DAG wrapping a linear result. -/
def single_path_to_dag (sid st goalType : String) (r : SynthesisResult K) :
    SynthesisDAG K :=
  let nodes := dictInsert (dictInsert [] sid ⟨sid, "source", st, Option.none, [], []⟩)
    "goal" ⟨"goal", "goal", goalType, r.path.getLast?, [sid], r.path⟩
  ⟨nodes, [sid], "goal", r.cost, r.confidence, r.proof⟩

/-- Strategy A gather loop of synthesize_multiarg_full: for each
multi-argument function with the goal codomain, try a direct multi-arg
synthesis and collect the successes in iteration order. -/
def strategyAAux (cat : Catalog K) (sources : List (String × String))
    (goalType : String) (maxCost : K) (fuel : Nat) :
    List (Func K) → Except String (List (SynthesisDAG K))
  | [] => Except.ok []
  | g :: gs =>
    if g.dom.isMulti then
      match try_synthesize_multiarg_func cat sources goalType g maxCost fuel with
      | Except.error e => Except.error e
      | Except.ok (some d) =>
        match strategyAAux cat sources goalType maxCost fuel gs with
        | Except.error e => Except.error e
        | Except.ok rest => Except.ok (d :: rest)
      | Except.ok Option.none => strategyAAux cat sources goalType maxCost fuel gs
    else strategyAAux cat sources goalType maxCost fuel gs

/-- Strategy A candidates (multiarg_results of synthesize_multiarg_full). -/
def strategyA (cat : Catalog K) (sources : List (String × String))
    (goalType : String) (maxCost : K) (fuel : Nat) :
    Except String (List (SynthesisDAG K)) :=
  strategyAAux cat sources goalType maxCost fuel (cat.funcsReturning goalType)

/-- Strategy B gather loop: one candidate per declared product type whose
product route succeeds. -/
def strategyBAux (cat : Catalog K) (sources : List (String × String))
    (goalType : String) (maxCost : K) (fuel : Nat) :
    List (String × ProductType) → Except String (List (SynthesisDAG K))
  | [] => Except.ok []
  | (pname, pt) :: ps =>
    match try_synthesize_via_product cat sources goalType pname pt maxCost fuel with
    | Except.error e => Except.error e
    | Except.ok (some d) =>
      match strategyBAux cat sources goalType maxCost fuel ps with
      | Except.error e => Except.error e
      | Except.ok rest => Except.ok (d :: rest)
    | Except.ok Option.none => strategyBAux cat sources goalType maxCost fuel ps

/-- Strategy B candidates (product_results of synthesize_multiarg_full). -/
def strategyB (cat : Catalog K) (sources : List (String × String))
    (goalType : String) (maxCost : K) (fuel : Nat) :
    Except String (List (SynthesisDAG K)) :=
  strategyBAux cat sources goalType maxCost fuel cat.productTypes

/-- Strategy C gather loop: for each source, wrap the best linear result
(when one exists) as a two-node DAG. -/
def strategyCAux (cat : Catalog K) (goalType : String) (maxCost : K) (fuel : Nat) :
    List (String × String) → Except String (List (SynthesisDAG K))
  | [] => Except.ok []
  | (sid, st) :: tl =>
    match synthesize_backward cat st goalType maxCost 10 fuel with
    | Except.error e => Except.error e
    | Except.ok [] => strategyCAux cat goalType maxCost fuel tl
    | Except.ok (r :: _) =>
      match strategyCAux cat goalType maxCost fuel tl with
      | Except.error e => Except.error e
      | Except.ok rest => Except.ok (single_path_to_dag sid st goalType r :: rest)

/-- Strategy C candidates (single_results of synthesize_multiarg_full). -/
def strategyC (cat : Catalog K) (sources : List (String × String))
    (goalType : String) (maxCost : K) (fuel : Nat) :
    Except String (List (SynthesisDAG K)) :=
  strategyCAux cat goalType maxCost fuel sources

/-- Python synthesize_multiarg_full: gather the candidates of the three
strategies, sort each strategy by total cost, concatenate in the order
A, B, C when prefer_multiarg else sort the union by total cost, and
return the first candidate (none when there is none). -/
def synthesize_multiarg_full (cat : Catalog K) (sources : List (String × String))
    (goalType : String) (maxCost : K) (preferMultiarg : Bool) (fuel : Nat) :
    Except String (Option (SynthesisDAG K)) :=
  match strategyA cat sources goalType maxCost fuel with
  | Except.error e => Except.error e
  | Except.ok la =>
    match strategyB cat sources goalType maxCost fuel with
    | Except.error e => Except.error e
    | Except.ok lb =>
      match strategyC cat sources goalType maxCost fuel with
      | Except.error e => Except.error e
      | Except.ok lc =>
        let allResults :=
          if preferMultiarg then
            sortByKey SynthesisDAG.total_cost la ++ sortByKey SynthesisDAG.total_cost lb ++
              sortByKey SynthesisDAG.total_cost lc
          else
            sortByKey SynthesisDAG.total_cost (la ++ lb ++ lc)
        Except.ok allResults.head?

end MultiargSynthesis

section Executor

variable {K : Type} [LinearOrderedCommRing K]

/-- Execution context (executor.ExecutionContext).  The Python default
constants (emission_factor 2.5, efficiency 0.35, kWh_to_CO2 0.5) are
rational literals supplied by the caller of the model. -/
structure ExecutionContext (K : Type) where
  sparqlEndpoint : Option String
  sparqlPrefixes : List (String × String)
  restHeaders : List (String × String)
  vars : List (String × Value K)
  constants : List (String × Value K)

/-- External effects of the executor, abstracted as oracles: the
sandboxed Python eval of expression strings against a symbol table, the
HTTP calls of the sparql and rest backends, and float division (used only
by the average builtin; exact division in a field instantiates it). -/
structure Oracles (K : Type) where
  evalExpr : String → List (String × Value K) → Except String (Value K)
  sparqlHttp : String → Except String (Value K)
  httpGet : String → Except String (Value K)
  httpPost : String → Value K → Except String (Value K)
  divByLen : K → Nat → K

/-- Update an insertion-ordered dictionary with another (Python
dict.update: later entries replace in place). -/
def dictUpdate {β : Type} (base upd : List (String × β)) : List (String × β) :=
  upd.foldl (fun acc kv => dictInsert acc kv.1 kv.2) base

/-- Textual rendering of a value (approximates Python str()); only its
use as replacement text matters to the model. -/
def valueStr [ToString K] : Value K → String
  | Value.num x => toString x
  | Value.str s => s
  | Value.vlist _ => "[...]"
  | Value.vtup _ => "(...)"
  | Value.vdict _ => "{...}"
  | Value.vnone => "None"

/-- Python Executor._substitute_placeholders. -/
def substitute_placeholders [ToString K] (template : String) (v : Value K) : String :=
  match v with
  | Value.vdict fields =>
    fields.foldl
      (fun acc kv =>
        (acc.replace ("\x7b" ++ kv.1 ++ "\x7d") (valueStr kv.2)).replace
          ("?" ++ kv.1) (valueStr kv.2))
      template
  | other =>
    ((template.replace "\x7bid\x7d" (valueStr other)).replace "\x7bvalue\x7d"
      (valueStr other)).replace "?input" (valueStr other)

/-- Python Executor._mock_sparql: a deterministic scalar derived from the
input record. -/
def mock_sparql (v : Value K) : Value K :=
  match v with
  | Value.vdict fields =>
    match List.lookup "energy" fields with
    | some x => x
    | Option.none =>
      match List.lookup "fuel" fields with
      | some x => x
      | Option.none =>
        match List.lookup "elec" fields with
        | some x => x
        | Option.none => Value.num 1000
  | _ => Value.num 1000

/-- Accumulating scan producing the maximal word-character runs of a
character list. -/
def wordRunsGo (cur : List Char) : List Char → List (List Char)
  | [] => if cur.isEmpty then [] else [cur.reverse]
  | c :: t =>
    if c.isAlphanum || c = '_' then wordRunsGo (c :: cur) t
    else if cur.isEmpty then wordRunsGo [] t
    else cur.reverse :: wordRunsGo [] t

/-- Maximal word-character runs of a character list (the matches of the
identifier regex of _execute_formula); runs starting with a digit are not
identifier matches. -/
def wordRuns (s : List Char) : List (List Char) :=
  wordRunsGo [] s

/-- The identifiers appearing in an expression, in textual order
(re.findall of _execute_formula; the Python code iterates over them as a
set, but every one is bound to the same value, so order is irrelevant). -/
def findIdentifiers (expr : String) : List String :=
  ((wordRuns expr.data).filter
    (fun r => match r with
      | [] => false
      | c :: _ => c.isAlpha || c = '_')).map (fun r => String.mk r)

/-- The reserved words excluded from identifier rebinding. -/
def reservedWords : List String :=
  ["and", "or", "not", "if", "else", "for", "in", "True", "False", "None"]

/-- Does the dictionary bind the key. -/
def hasKey {β : Type} (l : List (String × β)) (k : String) : Bool :=
  (List.lookup k l).isSome

/-- Symbol table of _execute_formula: constants overlaid with variables,
then bindings derived from the input value (tuple components, record
fields, or the scalar plus every free identifier of the expression). -/
def formulaVars (ctx : ExecutionContext K) (v : Value K) (expr : String) :
    List (String × Value K) :=
  let lv := dictUpdate ctx.constants ctx.vars
  match v with
  | Value.vtup vs =>
    let lv1 := dictUpdate lv
      ((vs.enum.map (fun p => [("arg" ++ toString p.1, p.2), ("x" ++ toString p.1, p.2)])).flatten)
    let lv2 :=
      match vs with
      | [s1, s2, s3] => dictUpdate lv1 [("scope1", s1), ("scope2", s2), ("scope3", s3)]
      | [a, b] => dictUpdate lv1 [("a", a), ("b", b)]
      | _ => lv1
    lv2
  | Value.vdict fields => dictUpdate lv fields
  | other =>
    let lv1 := dictUpdate lv [("x", other), ("input", other), ("value", other)]
    (findIdentifiers expr).foldl
      (fun acc nm =>
        if !(hasKey acc nm) && !(reservedWords.contains nm) then
          dictInsert acc nm other
        else acc)
      lv1

/-- Drop everything up to and including the first equals sign. -/
def afterFirstEq : List Char → List Char
  | [] => []
  | c :: t => if c = '=' then t else afterFirstEq t

/-- Python str.strip(): remove leading and trailing whitespace. -/
def pyStrip (s : List Char) : List Char :=
  ((s.dropWhile Char.isWhitespace).reverse.dropWhile Char.isWhitespace).reverse

/-- Core of Executor._formula_to_python on character lists: when the
expression contains an equals sign, keep only the stripped text after the
first occurrence. -/
def formulaToPythonCore (expr : List Char) : List Char :=
  if expr.contains '=' then pyStrip (afterFirstEq expr) else expr

/-- Python Executor._formula_to_python. -/
def formula_to_python (expr : String) : String :=
  String.mk (formulaToPythonCore expr.data)

/-- Python Executor._execute_formula: build the symbol table, rewrite the
expression, evaluate via the sandboxed eval, and wrap failures. -/
def execute_formula (ctx : ExecutionContext K) (o : Oracles K) (impl : Impl K)
    (v : Value K) : Except String (Value K) :=
  let table := formulaVars ctx v impl.expr
  let py := formula_to_python impl.expr
  match o.evalExpr py table with
  | Except.ok r => Except.ok r
  | Except.error e =>
    Except.error ("Formula evaluation failed: " ++ impl.expr ++ " -> " ++ py ++
      ", error: " ++ e)

/-- List or tuple contents of a value (Python isinstance(x, (list, tuple))). -/
def asSeq : Value K → Option (List (Value K))
  | Value.vlist vs => some vs
  | Value.vtup vs => some vs
  | _ => Option.none

/-- Numeric sum of a sequence (Python sum; a non-numeric element raises
TypeError). -/
def sumNums : List (Value K) → K → Except String K
  | [], acc => Except.ok acc
  | Value.num x :: t, acc => sumNums t (acc + x)
  | _ :: _, _ => Except.error ("TypeError")

/-- Numeric product of a sequence (math.prod). -/
def prodNums : List (Value K) → K → Except String K
  | [], acc => Except.ok acc
  | Value.num x :: t, acc => prodNums t (acc * x)
  | _ :: _, _ => Except.error ("TypeError")

/-- Python round(): round half to even, on a floor ring (the comparison
of the fractional part with one half is phrased without division). -/
def pyRound [FloorRing K] (x : K) : ℤ :=
  let f := Int.floor x
  let r := x - (f : K)
  if 2 * r < 1 then f
  else if 1 < 2 * r then f + 1
  else if f % 2 = 0 then f else f + 1

/-- Python Executor._execute_builtin with the fixed registry. -/
def execute_builtin [FloorRing K] (o : Oracles K) (nm : String) (v : Value K) :
    Except String (Value K) :=
  if nm = "identity" then Except.ok v
  else if nm = "sum" then
    match asSeq v with
    | some vs => (sumNums vs 0).map Value.num
    | Option.none => Except.ok v
  else if nm = "product" then
    match asSeq v with
    | some vs => (prodNums vs 1).map Value.num
    | Option.none => Except.ok v
  else if nm = "average" then
    match asSeq v with
    | some vs =>
      if vs.length > 0 then
        (sumNums vs 0).map (fun s => Value.num (o.divByLen s vs.length))
      else Except.ok v
    | Option.none => Except.ok v
  else if nm = "first" then
    match asSeq v with
    | some vs =>
      match vs.head? with
      | some x => Except.ok x
      | Option.none => Except.error ("IndexError")
    | Option.none => Except.ok v
  else if nm = "last" then
    match asSeq v with
    | some vs =>
      match vs.getLast? with
      | some x => Except.ok x
      | Option.none => Except.error ("IndexError")
    | Option.none => Except.ok v
  else if nm = "count" then
    match asSeq v with
    | some vs => Except.ok (Value.num (vs.length : K))
    | Option.none => Except.ok (Value.num 1)
  else if nm = "abs" then
    match v with
    | Value.num x => Except.ok (Value.num |x|)
    | _ => Except.error ("TypeError")
  else if nm = "round" then
    match v with
    | Value.num x => Except.ok (Value.num ((pyRound x : ℤ) : K))
    | _ => Except.error ("TypeError")
  else Except.error ("Unknown builtin function: " ++ nm)

/-- Python Executor._execute_unit_conversion: multiply scalars by the
factor, map element-wise over sequences preserving the container kind,
and pass anything else through. -/
def execute_unit_conversion (impl : Impl K) (v : Value K) : Except String (Value K) :=
  match v with
  | Value.num x => Except.ok (Value.num (x * impl.factor))
  | Value.vlist vs =>
    (vs.mapM (fun w => match w with
      | Value.num x => Except.ok (Value.num (x * impl.factor))
      | _ => Except.error ("TypeError"))).map Value.vlist
  | Value.vtup vs =>
    (vs.mapM (fun w => match w with
      | Value.num x => Except.ok (Value.num (x * impl.factor))
      | _ => Except.error ("TypeError"))).map Value.vtup
  | other => Except.ok other

/-- Python Executor._execute_sparql: substitute placeholders, send to the
endpoint when configured (prefix declarations prepended; the response
parsing is inside the HTTP oracle), else run the mock. -/
def execute_sparql [ToString K] (ctx : ExecutionContext K) (o : Oracles K)
    (impl : Impl K) (v : Value K) : Except String (Value K) :=
  let query := substitute_placeholders impl.query v
  match ctx.sparqlEndpoint with
  | some _ =>
    let pre := String.intercalate "\n"
      (ctx.sparqlPrefixes.map (fun kv => "PREFIX " ++ kv.1 ++ ": <" ++ kv.2 ++ ">"))
    match o.sparqlHttp (pre ++ "\n" ++ query) with
    | Except.ok r => Except.ok r
    | Except.error e => Except.error ("SPARQL execution failed: " ++ e)
  | Option.none => Except.ok (mock_sparql v)

/-- Python Executor._execute_rest (the requests library is modelled as
available, so the ImportError mock path is not taken). -/
def execute_rest [ToString K] (o : Oracles K) (impl : Impl K) (v : Value K) :
    Except String (Value K) :=
  let url := substitute_placeholders impl.url v
  if impl.method.toUpper = "GET" then
    match o.httpGet url with
    | Except.ok r => Except.ok r
    | Except.error e => Except.error ("REST call failed: " ++ e)
  else if impl.method.toUpper = "POST" then
    match o.httpPost url v with
    | Except.ok r => Except.ok r
    | Except.error e => Except.error ("REST call failed: " ++ e)
  else Except.error ("REST call failed: Unsupported HTTP method: " ++ impl.method)

/-- Symbol table of _build_json_from_schema (differs from the formula
table: no pair bindings, no identifier scan, no x binding for scalars). -/
def jsonVars (ctx : ExecutionContext K) (v : Value K) : List (String × Value K) :=
  let lv := dictUpdate ctx.constants ctx.vars
  match v with
  | Value.vtup vs =>
    let lv1 := dictUpdate lv
      ((vs.enum.map (fun p => [("arg" ++ toString p.1, p.2), ("x" ++ toString p.1, p.2)])).flatten)
    match vs with
    | [s1, s2, s3] => dictUpdate lv1 [("scope1", s1), ("scope2", s2), ("scope3", s3)]
    | _ => lv1
  | Value.vdict fields => dictUpdate lv fields
  | other => dictUpdate lv [("value", other), ("input", other)]

mutual

/-- Python Executor._build_json_from_schema: string leaves are evaluated
against the symbol table (falling back to the verbatim string on
failure), records recurse, lists map element-wise, literals pass through. -/
def buildJsonField (ctx : ExecutionContext K) (o : Oracles K) (v : Value K) :
    Value K → Value K
  | Value.str s =>
    match o.evalExpr s (jsonVars ctx v) with
    | Except.ok r => r
    | Except.error _ => Value.str s
  | Value.vdict fields => Value.vdict (buildJsonFields ctx o v fields)
  | Value.vlist items => Value.vlist (buildJsonItems ctx o v items)
  | other => other

/-- Record recursion of _build_json_from_schema. -/
def buildJsonFields (ctx : ExecutionContext K) (o : Oracles K) (v : Value K) :
    List (String × Value K) → List (String × Value K)
  | [] => []
  | (k, spec) :: t => (k, buildJsonField ctx o v spec) :: buildJsonFields ctx o v t

/-- List recursion of _build_json_from_schema: record items recurse, other
items pass through verbatim. -/
def buildJsonItems (ctx : ExecutionContext K) (o : Oracles K) (v : Value K) :
    List (Value K) → List (Value K)
  | [] => []
  | Value.vdict fields :: t =>
    Value.vdict (buildJsonFields ctx o v fields) :: buildJsonItems ctx o v t
  | item :: t => item :: buildJsonItems ctx o v t

end

/-- Python Executor._execute_json. -/
def execute_json (ctx : ExecutionContext K) (o : Oracles K) (impl : Impl K)
    (v : Value K) : Except String (Value K) :=
  match impl.schema with
  | Value.vdict fields => Except.ok (Value.vdict (buildJsonFields ctx o v fields))
  | _ => Except.ok (Value.vdict [])

/-- Symbol table of _execute_template. -/
def templateVars (ctx : ExecutionContext K) (v : Value K) : List (String × Value K) :=
  let lv := dictUpdate ctx.constants ctx.vars
  match v with
  | Value.vtup vs =>
    let lv1 := dictUpdate lv (vs.enum.map (fun p => ("arg" ++ toString p.1, p.2)))
    match vs with
    | [s1, s2, s3] => dictUpdate lv1 [("scope1", s1), ("scope2", s2), ("scope3", s3)]
    | _ => lv1
  | Value.vdict fields => dictUpdate lv fields
  | other => dictUpdate lv [("value", other)]

/-- Python Executor._execute_template: evaluate each mapping (falling back
to its source text), then substitute the double-brace placeholders. -/
def execute_template [ToString K] (ctx : ExecutionContext K) (o : Oracles K)
    (impl : Impl K) (v : Value K) : Except String (Value K) :=
  let table := templateVars ctx v
  let evaluated := impl.mappings.map
    (fun kv =>
      match o.evalExpr kv.2 table with
      | Except.ok r => (kv.1, valueStr r)
      | Except.error _ => (kv.1, kv.2))
  Except.ok (Value.str (evaluated.foldl
    (fun acc kv => acc.replace ("\x7b\x7b" ++ kv.1 ++ "\x7d\x7d") kv.2)
    impl.templateStr))

/-- Python Executor.execute_func: dispatch on impl.get("type",
"identity"); any tag outside the seven known ones (including the
defaulted "identity" of a missing or empty descriptor) raises. -/
def execute_func [FloorRing K] [ToString K] (ctx : ExecutionContext K) (o : Oracles K)
    (f : Func K) (v : Value K) : Except String (Value K) :=
  let tag := f.impl.tag
  if tag = "sparql" then execute_sparql ctx o f.impl v
  else if tag = "formula" then execute_formula ctx o f.impl v
  else if tag = "rest" then execute_rest o f.impl v
  else if tag = "builtin" then execute_builtin o f.impl.builtinName v
  else if tag = "unit_conversion" then execute_unit_conversion f.impl v
  else if tag = "json" then execute_json ctx o f.impl v
  else if tag = "template" then execute_template ctx o f.impl v
  else Except.error ("Unknown impl type: " ++ tag)

/-- Python Executor.execute_path: left fold of execute_func. -/
def execute_path [FloorRing K] [ToString K] (ctx : ExecutionContext K) (o : Oracles K)
    (path : List (Func K)) (v : Value K) : Except String (Value K) :=
  path.foldlM (fun acc f => execute_func ctx o f acc) v

/-- Substring containment on character lists (Python x in y for strings). -/
def subOf : List Char → List Char → Bool
  | needle, [] => needle.isEmpty
  | needle, c :: t => needle.isPrefixOf (c :: t) || subOf needle t

/-- Python x in y on strings. -/
def strIn (x y : String) : Bool :=
  subOf x.data y.data

/-- The source-node binding of Executor.execute_dag: exact id lookup
first, else the first entry related to the type name by substring
containment in either direction, else the first provided value (none
models the IndexError on an empty map). -/
def bind_source_value (sourceValues : List (String × Value K))
    (nodeId typeName : String) : Option (Value K) :=
  match List.lookup nodeId sourceValues with
  | some v => some v
  | Option.none =>
    match sourceValues.find? (fun kv => strIn typeName kv.1 || strIn kv.1 typeName) with
    | some kv => some kv.2
    | Option.none => (sourceValues.map (fun kv => kv.2)).head?

/-- The depth-first topological walk of SynthesisDAG.topological_order,
with fuel bounding the recursion depth (the Python recursion terminates
on acyclic graphs; a missing node raises KeyError). -/
def topoVisit (nodes : List (String × DAGNode K)) :
    Nat → List String → String → Except String (List String × List String)
  | 0, _, _ => Except.error ("RecursionError")
  | Nat.succ fuel, visited, nid =>
    if visited.contains nid then Except.ok (visited, [])
    else
      match List.lookup nid nodes with
      | Option.none => Except.error ("KeyError: " ++ nid)
      | some node => do
        let r ← node.inputs.foldlM
          (fun (acc : List String × List String) inputId => do
            let r2 ← topoVisit nodes fuel acc.1 inputId
            Except.ok (r2.1, acc.2 ++ r2.2))
          (nid :: visited, [])
        Except.ok (r.1, r.2 ++ [nid])

/-- Evaluation of one node of Executor.execute_dag given the values of
already-visited nodes. -/
def execDagNode [FloorRing K] [ToString K] (ctx : ExecutionContext K) (o : Oracles K)
    (sourceValues : List (String × Value K)) (nodeValues : List (String × Value K))
    (node : DAGNode K) : Except String (Value K) :=
  if node.node_type = "source" then
    match bind_source_value sourceValues node.id node.type_name with
    | some v => Except.ok v
    | Option.none => Except.error ("IndexError")
  else if node.node_type = "transform" then
    match node.inputs.head? with
    | Option.none => Except.error ("IndexError")
    | some inputId =>
      match List.lookup inputId nodeValues with
      | Option.none => Except.error ("KeyError: " ++ inputId)
      | some inputVal =>
        match node.path with
        | _ :: _ => execute_path ctx o node.path inputVal
        | [] =>
          match node.func with
          | some f => execute_func ctx o f inputVal
          | Option.none => Except.ok inputVal
  else if node.node_type = "aggregate" || node.node_type = "goal" then
    if node.inputs.length > 1 then do
      let inputVals ← node.inputs.mapM
        (fun inputId =>
          match List.lookup inputId nodeValues with
          | Option.none => Except.error ("KeyError: " ++ inputId)
          | some w => Except.ok w)
      let tupleVal := Value.vtup inputVals
      match node.path with
      | _ :: _ => execute_path ctx o node.path tupleVal
      | [] =>
        match node.func with
        | some f => execute_func ctx o f tupleVal
        | Option.none => Except.ok tupleVal
    else do
      let inputVal ←
        match node.inputs.head? with
        | Option.none => Except.ok (Value.vnone (K := K))
        | some inputId =>
          match List.lookup inputId nodeValues with
          | Option.none => Except.error ("KeyError: " ++ inputId)
          | some w => Except.ok w
      match node.path with
      | _ :: _ => execute_path ctx o node.path inputVal
      | [] =>
        match node.func with
        | some f => execute_func ctx o f inputVal
        | Option.none => Except.ok inputVal
  else Except.ok (Value.vnone (K := K))

/-- Python Executor.execute_dag: topological order from the goal node,
then per-node evaluation into a value dictionary, returning the goal
value. -/
def execute_dag [FloorRing K] [ToString K] (ctx : ExecutionContext K) (o : Oracles K)
    (dag : SynthesisDAG K) (sourceValues : List (String × Value K)) (fuel : Nat) :
    Except String (Value K) := do
  let r ← topoVisit dag.nodes fuel [] dag.goal_node
  let nodeValues ← r.2.foldlM
    (fun (acc : List (String × Value K)) nid =>
      match List.lookup nid dag.nodes with
      | Option.none => Except.error ("KeyError: " ++ nid)
      | some node => do
        let v ← execDagNode ctx o sourceValues acc node
        Except.ok (dictInsert acc nid v))
    []
  match List.lookup dag.goal_node nodeValues with
  | some v => Except.ok v
  | Option.none => Except.error ("KeyError: " ++ dag.goal_node)

end Executor

section Provenance

/-- Identifier in the provenance graph: explicitly supplied ids are
strings; generated ids are modelled as a kind tag (entity, activity,
agent) plus a per-graph counter value, reflecting the uniqueness of the
uuid-based _generate_id. -/
inductive PId where
  | named (s : String)
  | gen (kind : String) (n : Nat)
deriving DecidableEq, Repr

/-- PROV-O entity record (provenance.Entity); the runtime value is kept
as its textual rendering and timestamps are not modelled. -/
structure EntityR where
  id : PId
  type_name : String
  value : String
deriving DecidableEq, Repr

/-- PROV-O activity record (provenance.Activity); ended tracks whether
end_activity stamped the activity. -/
structure ActivityR where
  id : PId
  func_id : String
  func_signature : String
  ended : Bool
deriving DecidableEq, Repr

/-- PROV-O agent record (provenance.Agent). -/
structure AgentR where
  id : PId
  name : String
  agent_type : String
deriving DecidableEq, Repr

/-- PROV-O used edge (provenance.Usage). -/
structure UsageR where
  activity_id : PId
  entity_id : PId
  role : String
deriving DecidableEq, Repr

/-- PROV-O wasGeneratedBy edge (provenance.Generation). -/
structure GenerationR where
  entity_id : PId
  activity_id : PId
  role : String
deriving DecidableEq, Repr

/-- PROV-O wasDerivedFrom edge (provenance.Derivation). -/
structure DerivationR where
  derived_entity_id : PId
  source_entity_id : PId
  activity_id : Option PId
deriving DecidableEq, Repr

/-- PROV-O wasAssociatedWith edge (provenance.Association). -/
structure AssociationR where
  activity_id : PId
  agent_id : PId
  role : String
deriving DecidableEq, Repr

/-- Provenance graph (provenance.ProvenanceGraph); counter is the gensym
state backing _generate_id. -/
structure ProvenanceGraph where
  counter : Nat
  entities : List EntityR
  activities : List ActivityR
  agents : List AgentR
  usages : List UsageR
  generations : List GenerationR
  derivations : List DerivationR
  associations : List AssociationR
  system_agent : PId

/-- Generate a fresh id of the given kind (provenance
ProvenanceGraph._generate_id). -/
def ProvenanceGraph.genId (g : ProvenanceGraph) (kind : String) : PId × ProvenanceGraph :=
  (PId.gen kind g.counter, { g with counter := g.counter + 1 })

/-- A fresh graph holding only the default system agent (ProvenanceGraph
construction). -/
def ProvenanceGraph.init : ProvenanceGraph :=
  ⟨0, [], [], [⟨PId.named "system", "TypeSynthesis System", "system"⟩],
   [], [], [], [], PId.named "system"⟩

/-- Python ProvenanceGraph.end_activity: stamp the end of the activity. -/
def ProvenanceGraph.endActivity (g : ProvenanceGraph) (aid : PId) : ProvenanceGraph :=
  { g with activities :=
      (g.activities.map (fun a => if a.id = aid then { a with ended := true } else a)) }

/-- Inputs of one tracked function execution
(ProvenanceTracker.track_function_execution arguments; the output value is
kept as its textual rendering). -/
structure TrackCall where
  func_id : String
  func_signature : String
  input_entity_ids : List PId
  output_value : String
  output_type : String

/-- Python ProvenanceTracker.track_function_execution on the underlying
graph: allocate the activity, associate the system agent, record a used
edge per input, allocate the output entity, record its generation and one
derivation per input, then end the activity; returns the new graph and
the output entity id. -/
def track_function_execution (g : ProvenanceGraph) (c : TrackCall) :
    ProvenanceGraph × PId :=
  let a := g.genId "activity"
  let g1 := { a.2 with activities :=
    (a.2.activities ++ [ActivityR.mk a.1 c.func_id c.func_signature false]) }
  let g2 := { g1 with associations :=
    (g1.associations ++ [AssociationR.mk a.1 g1.system_agent ""]) }
  let g3 := { g2 with usages :=
    (g2.usages ++ c.input_entity_ids.enum.map
      (fun (p : Nat × PId) => UsageR.mk a.1 p.2 ("input_" ++ toString p.1))) }
  let e := g3.genId "entity"
  let g4 := { e.2 with entities :=
    (e.2.entities ++ [EntityR.mk e.1 c.output_type c.output_value]) }
  let g5 := { g4 with generations :=
    (g4.generations ++ [GenerationR.mk e.1 a.1 "output"]) }
  let g6 := { g5 with derivations :=
    (g5.derivations ++ c.input_entity_ids.map (fun i => DerivationR.mk e.1 i (some a.1))) }
  (g6.endActivity a.1, e.1)

/-- A sequence of tracked executions starting from a graph (the enabled
tracker delegates each call to track_function_execution); returns the
final graph and the output entity ids in call order. -/
def runTracker (g : ProvenanceGraph) : List TrackCall → ProvenanceGraph × List PId
  | [] => (g, [])
  | c :: cs =>
    let r := track_function_execution g c
    let rest := runTracker r.1 cs
    (rest.1, r.2 :: rest.2)

end Provenance

section SortLemmas

variable {K : Type} [LinearOrderedCommRing K] {α : Type} {key : α → K}

theorem mem_insertByKey {x a : α} {l : List α} :
    a ∈ insertByKey key x l ↔ a = x ∨ a ∈ l := by
  induction l with
  | nil => simp [insertByKey]
  | cons y ys ih =>
    simp only [insertByKey]
    by_cases h : key x ≤ key y
    · simp [h, List.mem_cons]
    · simp only [h, if_false, List.mem_cons, ih]
      tauto

theorem mem_sortByKey {a : α} {l : List α} :
    a ∈ sortByKey key l ↔ a ∈ l := by
  induction l with
  | nil => simp [sortByKey]
  | cons y ys ih =>
    show a ∈ insertByKey key y (sortByKey key ys) ↔ _
    rw [mem_insertByKey]
    simp [ih]

theorem length_insertByKey (x : α) (l : List α) :
    (insertByKey key x l).length = l.length + 1 := by
  induction l with
  | nil => simp [insertByKey]
  | cons y ys ih =>
    simp only [insertByKey]
    by_cases h : key x ≤ key y
    · simp [h]
    · simp [h, ih]

theorem length_sortByKey (l : List α) :
    (sortByKey key l).length = l.length := by
  induction l with
  | nil => rfl
  | cons y ys ih =>
    show (insertByKey key y (sortByKey key ys)).length = _
    rw [length_insertByKey, ih]
    rfl

theorem sortByKey_eq_nil {l : List α} :
    sortByKey key l = [] ↔ l = [] := by
  constructor
  · intro h
    have : (sortByKey key l).length = l.length := length_sortByKey l
    rw [h] at this
    exact List.length_eq_zero.mp this.symm
  · intro h
    rw [h]
    rfl

theorem pairwise_insertByKey {x : α} {l : List α}
    (h : l.Pairwise (fun a b => key a ≤ key b)) :
    (insertByKey key x l).Pairwise (fun a b => key a ≤ key b) := by
  induction l with
  | nil => simp [insertByKey]
  | cons y ys ih =>
    rcases List.pairwise_cons.mp h with ⟨hy, hys⟩
    simp only [insertByKey]
    by_cases hxy : key x ≤ key y
    · rw [if_pos hxy]
      refine List.pairwise_cons.mpr ⟨?_, h⟩
      intro b hb
      rcases List.mem_cons.mp hb with hb | hb
      · rw [hb]
        exact hxy
      · exact hxy.trans (hy b hb)
    · rw [if_neg hxy]
      refine List.pairwise_cons.mpr ⟨?_, ih hys⟩
      intro b hb
      rcases mem_insertByKey.mp hb with hb | hb
      · rw [hb]
        exact le_of_lt (lt_of_not_le hxy)
      · exact hy b hb

theorem pairwise_sortByKey (l : List α) :
    (sortByKey key l).Pairwise (fun a b => key a ≤ key b) := by
  induction l with
  | nil => simp [sortByKey]
  | cons y ys ih => exact pairwise_insertByKey ih

theorem head_min_of_sortByKey {l rest : List α} {m : α}
    (h : sortByKey key l = m :: rest) :
    m ∈ l ∧ ∀ x ∈ l, key m ≤ key x := by
  have hm : m ∈ l := by
    have h2 : m ∈ sortByKey key l := by
      rw [h]
      exact List.mem_cons_self _ _
    exact mem_sortByKey.mp h2
  refine ⟨hm, ?_⟩
  intro x hx
  have hx2 : x ∈ m :: rest := by
    rw [← h, mem_sortByKey]
    exact hx
  rcases List.mem_cons.mp hx2 with hx2 | hx2
  · rw [hx2]
  · have hp : (sortByKey key l).Pairwise (fun a b => key a ≤ key b) :=
      pairwise_sortByKey l
    rw [h] at hp
    exact (List.pairwise_cons.mp hp).1 x hx2

theorem filter_insertByKey (x : α) (l : List α) (c : K) :
    (insertByKey key x l).filter (fun a => decide (key a = c)) =
      if key x = c then x :: l.filter (fun a => decide (key a = c))
      else l.filter (fun a => decide (key a = c)) := by
  induction l with
  | nil =>
    by_cases hx : key x = c
    · simp [insertByKey, List.filter, hx]
    · simp [insertByKey, List.filter, hx]
  | cons y ys ih =>
    simp only [insertByKey]
    by_cases hxy : key x ≤ key y
    · rw [if_pos hxy]
      by_cases hx : key x = c
      · simp [List.filter_cons, hx]
      · simp [List.filter_cons, hx]
    · rw [if_neg hxy]
      by_cases hx : key x = c
      · have hy : ¬ (key y = c) := by
          intro hyc
          exact hxy (le_of_eq (hx.trans hyc.symm))
        simp [List.filter_cons, hx, hy, ih]
      · by_cases hy : key y = c
        · simp [List.filter_cons, hx, hy, ih]
        · simp [List.filter_cons, hx, hy, ih]

theorem filter_sortByKey (l : List α) (c : K) :
    (sortByKey key l).filter (fun a => decide (key a = c)) =
      l.filter (fun a => decide (key a = c)) := by
  induction l with
  | nil => rfl
  | cons y ys ih =>
    show (insertByKey key y (sortByKey key ys)).filter _ = _
    rw [filter_insertByKey]
    by_cases hy : key y = c
    · simp [List.filter_cons, hy, ih]
    · simp [List.filter_cons, hy, ih]

end SortLemmas

section ProofTermLemmas

variable {K : Type} [LinearOrderedCommRing K]

theorem compFlatten_append_funcNodes (acc : List (ProofNode K)) (l : List (Func K)) :
    (l.map make_func).foldl
      (fun acc p =>
        match p with
        | ProofNode.comp cs _ _ => acc ++ cs
        | ProofNode.identity _ => acc
        | q => acc ++ [q])
      acc = acc ++ l.map make_func := by
  induction l generalizing acc with
  | nil => simp
  | cons f fs ih =>
    simp only [List.map_cons, List.foldl_cons]
    rw [ih]
    simp [make_func]

theorem compFlatten_funcNodes (l : List (Func K)) :
    compFlatten (l.map make_func) = l.map make_func := by
  have := compFlatten_append_funcNodes (K := K) [] l
  simpa [compFlatten] using this

theorem make_composition_cons_ok (p : ProofNode K) (ps : List (ProofNode K)) :
    ∃ r, make_composition (p :: ps) = Except.ok r := by
  cases ps with
  | nil => exact ⟨p, rfl⟩
  | cons q rest =>
    show ∃ r, (match compFlatten (p :: q :: rest) with
      | [] => Except.ok (ProofNode.identity p.srcTy)
      | [r] => Except.ok r
      | r :: r2 :: rs =>
        Except.ok (ProofNode.comp (r :: r2 :: rs) r.srcTy ((r2 :: rs).getLastD r2).tgtTy)) =
      Except.ok r
    cases compFlatten (p :: q :: rest) with
    | nil => exact ⟨_, rfl⟩
    | cons r rs =>
      cases rs with
      | nil => exact ⟨r, rfl⟩
      | cons r2 rs2 => exact ⟨_, rfl⟩

theorem make_composition_single (f : Func K) :
    make_composition [make_func f] = Except.ok (make_func f) := rfl

theorem make_composition_funcNodes (f g : Func K) (t : List (Func K)) :
    ∃ s tg, make_composition ((f :: g :: t).map make_func) =
      Except.ok (ProofNode.comp ((f :: g :: t).map make_func) s tg) := by
  have hflat := compFlatten_funcNodes (K := K) (f :: g :: t)
  refine ⟨(make_func f).srcTy,
    ((make_func g :: t.map make_func).getLastD (make_func g)).tgtTy, ?_⟩
  show (match compFlatten ((f :: g :: t).map make_func) with
    | [] => Except.ok (ProofNode.identity (make_func f).srcTy)
    | [r] => Except.ok r
    | r :: r2 :: rs =>
      Except.ok (ProofNode.comp (r :: r2 :: rs) r.srcTy ((r2 :: rs).getLastD r2).tgtTy)) = _
  rw [hflat]
  rfl

end ProofTermLemmas

section SearchLemmas

variable {K : Type} [LinearOrderedCommRing K]

/-- The shape of the proof term attached to a search result, as a
function of its path. -/
def ProofShape (srcType : String) (r : SynthesisResult K) : Prop :=
  match r.path with
  | [] => r.proof = make_identity srcType
  | [f] => r.proof = make_func f
  | _ :: _ :: _ => ∃ s tg, r.proof = ProofNode.comp (r.path.map make_func) s tg

/-- Invariant of emitted search results: cost is the path cost sum,
confidence the path confidence product, and the proof has the shape
determined by the path. -/
def ResultGood (srcType : String) (r : SynthesisResult K) : Prop :=
  r.cost = path_cost r.path ∧ r.confidence = path_conf r.path ∧ ProofShape srcType r

/-- Invariant of queue entries: cumulative cost and confidence agree with
the carried path. -/
def EntryGood (e : PQEntry K) : Prop :=
  e.cost = path_cost e.path ∧ e.conf = path_conf e.path

theorem path_cost_nil : path_cost ([] : List (Func K)) = 0 := rfl

theorem path_cost_cons (f : Func K) (p : List (Func K)) :
    path_cost (f :: p) = f.cost + path_cost p := by
  simp [path_cost]

theorem path_conf_nil : path_conf ([] : List (Func K)) = 1 := rfl

theorem path_conf_cons (f : Func K) (p : List (Func K)) :
    path_conf (f :: p) = f.conf * path_conf p := by
  simp [path_conf]

theorem popMin_mem {pq : List (PQEntry K)} {e : PQEntry K} {rest : List (PQEntry K)}
    (h : popMin pq = some (e, rest)) :
    e ∈ pq ∧ ∀ x ∈ rest, x ∈ pq := by
  induction pq generalizing e rest with
  | nil => cases h
  | cons y ys ih =>
    simp only [popMin] at h
    cases hys : popMin ys with
    | none =>
      rw [hys] at h
      injection h with h2
      injection h2 with h3 h4
      subst h3
      subst h4
      exact ⟨List.mem_cons_self _ _, by intro x hx; cases hx⟩
    | some mr =>
      obtain ⟨m, r2⟩ := mr
      rw [hys] at h
      dsimp only at h
      by_cases hle : entryLE y m
      · rw [if_pos hle] at h
        injection h with h2
        injection h2 with h3 h4
        subst h3
        subst h4
        exact ⟨List.mem_cons_self _ _, fun x hx => List.mem_cons_of_mem _ hx⟩
      · rw [if_neg hle] at h
        injection h with h2
        injection h2 with h3 h4
        subst h3
        subst h4
        have hm := ih hys
        refine ⟨List.mem_cons_of_mem _ hm.1, ?_⟩
        intro x hx
        rcases List.mem_cons.mp hx with hx | hx
        · rw [hx]
          exact List.mem_cons_self _ _
        · exact List.mem_cons_of_mem _ (hm.2 x hx)

theorem sbExpand_good {cat : Catalog K} {maxCost : K} {e : PQEntry K} {counter : Nat}
    (he : EntryGood e) :
    ∀ x ∈ (sbExpand cat maxCost e counter).1, EntryGood x := by
  have aux : ∀ (L : List (Func K)) (acc : List (PQEntry K) × Nat),
      (∀ x ∈ acc.1, EntryGood x) →
      ∀ x ∈ (L.foldl
        (fun acc f =>
          if f.dom.isMulti then acc
          else
            let newCost := e.cost + f.cost
            if newCost > maxCost then acc
            else
              let c := acc.2 + 1
              (acc.1 ++ [⟨newCost, c, f.dom.singleTy, f :: e.path, e.conf * f.conf⟩], c))
        acc).1, EntryGood x := by
    intro L
    induction L with
    | nil => intro acc hacc x hx; exact hacc x hx
    | cons f fs ih =>
      intro acc hacc x hx
      simp only [List.foldl_cons] at hx
      by_cases hm : f.dom.isMulti
      · rw [if_pos hm] at hx
        exact ih acc hacc x hx
      · rw [if_neg hm] at hx
        by_cases hc : e.cost + f.cost > maxCost
        · rw [if_pos hc] at hx
          exact ih acc hacc x hx
        · rw [if_neg hc] at hx
          refine ih _ ?_ x hx
          intro y hy
          rcases List.mem_append.mp hy with hy | hy
          · exact hacc y hy
          · rcases List.mem_singleton.mp hy with hy
            rw [hy]
            refine ⟨?_, ?_⟩
            · show e.cost + f.cost = path_cost (f :: e.path)
              rw [path_cost_cons, he.1]
              ring
            · show e.conf * f.conf = path_conf (f :: e.path)
              rw [path_conf_cons, he.2]
              ring
  exact aux _ ([], counter) (by intro x hx; cases hx)

theorem sbLoop_ok_good (cat : Catalog K) (srcType : String) (maxCost : K)
    (maxResults : Nat) :
    ∀ (fuel : Nat) (pq : List (PQEntry K)) (counter : Nat) (visited : List (String × K))
      (results : List (SynthesisResult K)),
      (∀ e ∈ pq, EntryGood e) → (∀ r ∈ results, ResultGood srcType r) →
      ∃ out, sbLoop cat srcType maxCost maxResults fuel pq counter visited results =
          Except.ok out ∧ ∀ r ∈ out, ResultGood srcType r := by
  intro fuel
  induction fuel with
  | zero =>
    intro pq counter visited results hpq hres
    exact ⟨results, rfl, hres⟩
  | succ fuel ih =>
    intro pq counter visited results hpq hres
    rw [sbLoop]
    split
    · exact ⟨results, rfl, hres⟩
    · cases hpop : popMin pq with
      | none => exact ⟨results, rfl, hres⟩
      | some epq2 =>
        obtain ⟨e, pq2⟩ := epq2
        have hmem := popMin_mem hpop
        have he : EntryGood e := hpq e hmem.1
        have hpq2 : ∀ x ∈ pq2, EntryGood x := fun x hx => hpq x (hmem.2 x hx)
        dsimp only
        by_cases hgoal : e.cur_type = srcType
        · rw [if_pos hgoal]
          cases hpath : e.path with
          | nil =>
            dsimp only
            refine ih pq2 counter visited
              (results ++ [⟨e.cost, e.conf, [], make_identity srcType⟩]) hpq2 ?_
            intro r hr
            rcases List.mem_append.mp hr with hr | hr
            · exact hres r hr
            · rcases List.mem_singleton.mp hr with hr
              rw [hr]
              refine ⟨?_, ?_, ?_⟩
              · show e.cost = path_cost []
                rw [← hpath]
                exact he.1
              · show e.conf = path_conf []
                rw [← hpath]
                exact he.2
              · show ProofShape srcType ⟨e.cost, e.conf, [], make_identity srcType⟩
                simp [ProofShape]
          | cons f t =>
            dsimp only
            cases t with
            | nil =>
              rw [List.map_singleton, make_composition_single]
              dsimp only
              refine ih pq2 counter visited
                (results ++ [⟨e.cost, e.conf, [f], make_func f⟩]) hpq2 ?_
              intro r hr
              rcases List.mem_append.mp hr with hr | hr
              · exact hres r hr
              · rcases List.mem_singleton.mp hr with hr
                rw [hr]
                refine ⟨?_, ?_, ?_⟩
                · show e.cost = path_cost [f]
                  rw [← hpath]
                  exact he.1
                · show e.conf = path_conf [f]
                  rw [← hpath]
                  exact he.2
                · show ProofShape srcType ⟨e.cost, e.conf, [f], make_func f⟩
                  simp [ProofShape]
            | cons g t2 =>
              obtain ⟨s, tg, hmc⟩ := make_composition_funcNodes f g t2
              rw [hmc]
              dsimp only
              refine ih pq2 counter visited
                (results ++ [⟨e.cost, e.conf, f :: g :: t2,
                  ProofNode.comp ((f :: g :: t2).map make_func) s tg⟩]) hpq2 ?_
              intro r hr
              rcases List.mem_append.mp hr with hr | hr
              · exact hres r hr
              · rcases List.mem_singleton.mp hr with hr
                rw [hr]
                refine ⟨?_, ?_, ?_⟩
                · show e.cost = path_cost (f :: g :: t2)
                  rw [← hpath]
                  exact he.1
                · show e.conf = path_conf (f :: g :: t2)
                  rw [← hpath]
                  exact he.2
                · exact ⟨s, tg, rfl⟩
        · rw [if_neg hgoal]
          split
          · exact ih pq2 counter visited results hpq2 hres
          · refine ih (pq2 ++ (sbExpand cat maxCost e counter).1)
              (sbExpand cat maxCost e counter).2
              (dictInsert visited e.cur_type e.cost) results ?_ hres
            intro x hx
            rcases List.mem_append.mp hx with hx | hx
            · exact hpq2 x hx
            · exact sbExpand_good he x hx

theorem sbSearch_ok_good (cat : Catalog K) (srcType goalType : String) (maxCost : K)
    (maxResults fuel : Nat) :
    ∃ out, sbSearch cat srcType goalType maxCost maxResults fuel = Except.ok out ∧
      ∀ r ∈ out, ResultGood srcType r := by
  refine sbLoop_ok_good cat srcType maxCost maxResults fuel _ 0 [] [] ?_ ?_
  · intro e hee
    rcases List.mem_singleton.mp hee with hee
    rw [hee]
    exact ⟨rfl, rfl⟩
  · intro r hr
    cases hr

theorem synthesize_backward_ok_good (cat : Catalog K) (srcType goalType : String)
    (maxCost : K) (maxResults fuel : Nat) :
    ∃ l, synthesize_backward cat srcType goalType maxCost maxResults fuel =
        Except.ok l ∧ ∀ r ∈ l, ResultGood srcType r := by
  obtain ⟨out, hout, hgood⟩ := sbSearch_ok_good cat srcType goalType maxCost maxResults fuel
  refine ⟨sortByKey SynthesisResult.cost out, ?_, ?_⟩
  · rw [synthesize_backward, hout]
    rfl
  · intro r hr
    exact hgood r (mem_sortByKey.mp hr)

/-- Determinism glue: any equation about the result of synthesize_backward
can be combined with the goodness lemma. -/
theorem resultGood_of_sb_eq {cat : Catalog K} {srcType goalType : String}
    {maxCost : K} {maxResults fuel : Nat} {l : List (SynthesisResult K)}
    (h : synthesize_backward cat srcType goalType maxCost maxResults fuel = Except.ok l) :
    ∀ r ∈ l, ResultGood srcType r := by
  obtain ⟨l2, hl2, hgood⟩ := synthesize_backward_ok_good cat srcType goalType maxCost
    maxResults fuel
  rw [h] at hl2
  injection hl2 with hl3
  rw [hl3]
  exact hgood

end SearchLemmas

section OkLemmas

variable {K : Type} [LinearOrderedCommRing K]

theorem firstSearchArg_ok (cat : Catalog K) (rt : String) (budget : K) (fuel : Nat) :
    ∀ srcs : List (String × String),
      ∃ z, firstSearchArg cat rt budget fuel srcs = Except.ok z := by
  intro srcs
  induction srcs with
  | nil => exact ⟨Option.none, rfl⟩
  | cons sv tl ih =>
    obtain ⟨sid, st⟩ := sv
    obtain ⟨l, hl, _⟩ := synthesize_backward_ok_good cat st rt budget 10 fuel
    rw [firstSearchArg, hl]
    cases l with
    | nil => exact ih
    | cons r rs => exact ⟨some (sid, r), rfl⟩

theorem multiargLoop_ok (cat : Catalog K) (sources : List (String × String))
    (remaining : K) (fuel : Nat) :
    ∀ (reqs : List String) (used : List String) (tc cf : K)
      (acc : List (String × SynthesisResult K)),
      ∃ z, multiargLoop cat sources remaining fuel reqs used tc cf acc = Except.ok z := by
  intro reqs
  induction reqs with
  | nil => intro used tc cf acc; exact ⟨some (acc, tc, cf), rfl⟩
  | cons rt rest ih =>
    intro used tc cf acc
    rw [multiargLoop]
    cases sources.find? (fun sv => sv.2 == rt && !(used.contains sv.1)) with
    | some sv => exact ih _ _ _ _
    | none =>
      obtain ⟨z, hz⟩ := firstSearchArg_ok cat rt (remaining - tc) fuel sources
      rw [hz]
      cases z with
      | none => exact ⟨Option.none, rfl⟩
      | some sr =>
        obtain ⟨sid, r⟩ := sr
        exact ih used (tc + r.cost) (cf * r.confidence) (acc ++ [(sid, r)])

theorem build_dag_from_multiarg_ok (sources : List (String × String))
    (goalType : String) (g : Func K) (argResults : List (String × SynthesisResult K))
    (tc cf : K) :
    ∃ d, build_dag_from_multiarg sources goalType g argResults tc cf = Except.ok d :=
  ⟨_, rfl⟩

theorem try_synthesize_multiarg_func_ok (cat : Catalog K)
    (sources : List (String × String)) (goalType : String) (g : Func K)
    (maxCost : K) (fuel : Nat) :
    ∃ z, try_synthesize_multiarg_func cat sources goalType g maxCost fuel =
      Except.ok z := by
  obtain ⟨z, hz⟩ := multiargLoop_ok cat sources (maxCost - g.cost) fuel g.dom.domTypes
    [] g.cost g.conf []
  rw [try_synthesize_multiarg_func, hz]
  cases z with
  | none => exact ⟨Option.none, rfl⟩
  | some a =>
    obtain ⟨args, tc, cf⟩ := a
    obtain ⟨d, hd⟩ := build_dag_from_multiarg_ok sources goalType g args tc cf
    dsimp only
    rw [hd]
    exact ⟨some d, rfl⟩

theorem productLoop_ok (cat : Catalog K) (sources : List (String × String))
    (remaining : K) (fuel : Nat) :
    ∀ (comps : List String) (tc cf : K)
      (acc : List (String × String × SynthesisResult K)),
      ∃ z, productLoop cat sources remaining fuel comps tc cf acc = Except.ok z := by
  intro comps
  induction comps with
  | nil => intro tc cf acc; exact ⟨some (acc, tc, cf), rfl⟩
  | cons c rest ih =>
    intro tc cf acc
    rw [productLoop]
    cases sources.find? (fun sv => sv.2 == c) with
    | some sv => exact ih _ _ _
    | none =>
      obtain ⟨z, hz⟩ := firstSearchArg_ok cat c (remaining - tc) fuel sources
      rw [hz]
      cases z with
      | none => exact ⟨Option.none, rfl⟩
      | some sr =>
        obtain ⟨sid, r⟩ := sr
        exact ih (tc + r.cost) (cf * r.confidence) (acc ++ [(sid, c, r)])

theorem build_dag_from_product_ok (sources : List (String × String))
    (goalType : String) (comps : List (String × String × SynthesisResult K))
    (agg : SynthesisResult K) (tc cf : K) :
    ∃ d, build_dag_from_product sources goalType comps agg tc cf = Except.ok d := by
  rw [build_dag_from_product]
  cases hp : agg.path with
  | nil => exact ⟨_, rfl⟩
  | cons f t =>
    obtain ⟨r, hr⟩ := make_composition_cons_ok (make_tuple (productNodes 0 comps).2.2)
      [agg.proof]
    rw [hr]
    exact ⟨_, rfl⟩

theorem try_synthesize_via_product_ok (cat : Catalog K)
    (sources : List (String × String)) (goalType productName : String)
    (pt : ProductType) (maxCost : K) (fuel : Nat) :
    ∃ z, try_synthesize_via_product cat sources goalType productName pt maxCost fuel =
      Except.ok z := by
  obtain ⟨l, hl, _⟩ := synthesize_backward_ok_good cat productName goalType maxCost 10 fuel
  rw [try_synthesize_via_product, hl]
  cases l with
  | nil => exact ⟨Option.none, rfl⟩
  | cons agg rest =>
    obtain ⟨z, hz⟩ := productLoop_ok cat sources (maxCost - agg.cost) fuel pt.components
      agg.cost agg.confidence []
    dsimp only
    rw [hz]
    cases z with
    | none => exact ⟨Option.none, rfl⟩
    | some a =>
      obtain ⟨cs, tc, cf⟩ := a
      obtain ⟨d, hd⟩ := build_dag_from_product_ok sources goalType cs agg tc cf
      dsimp only
      rw [hd]
      exact ⟨some d, rfl⟩

theorem strategyAAux_ok (cat : Catalog K) (sources : List (String × String))
    (goalType : String) (maxCost : K) (fuel : Nat) :
    ∀ L : List (Func K), ∃ l, strategyAAux cat sources goalType maxCost fuel L =
      Except.ok l := by
  intro L
  induction L with
  | nil => exact ⟨[], rfl⟩
  | cons g gs ih =>
    rw [strategyAAux]
    by_cases hm : g.dom.isMulti
    · rw [if_pos hm]
      obtain ⟨z, hz⟩ := try_synthesize_multiarg_func_ok cat sources goalType g maxCost fuel
      rw [hz]
      obtain ⟨l, hl⟩ := ih
      cases z with
      | none => exact ⟨l, hl⟩
      | some d =>
        rw [hl]
        exact ⟨d :: l, rfl⟩
    · rw [if_neg hm]
      exact ih

theorem strategyBAux_ok (cat : Catalog K) (sources : List (String × String))
    (goalType : String) (maxCost : K) (fuel : Nat) :
    ∀ L : List (String × ProductType),
      ∃ l, strategyBAux cat sources goalType maxCost fuel L = Except.ok l := by
  intro L
  induction L with
  | nil => exact ⟨[], rfl⟩
  | cons p ps ih =>
    obtain ⟨pname, pt⟩ := p
    rw [strategyBAux]
    obtain ⟨z, hz⟩ := try_synthesize_via_product_ok cat sources goalType pname pt maxCost fuel
    rw [hz]
    obtain ⟨l, hl⟩ := ih
    cases z with
    | none => exact ⟨l, hl⟩
    | some d =>
      rw [hl]
      exact ⟨d :: l, rfl⟩

theorem strategyCAux_ok (cat : Catalog K) (goalType : String) (maxCost : K) (fuel : Nat) :
    ∀ L : List (String × String), ∃ l, strategyCAux cat goalType maxCost fuel L =
      Except.ok l := by
  intro L
  induction L with
  | nil => exact ⟨[], rfl⟩
  | cons sv tl ih =>
    obtain ⟨sid, st⟩ := sv
    obtain ⟨rs, hrs, _⟩ := synthesize_backward_ok_good cat st goalType maxCost 10 fuel
    rw [strategyCAux, hrs]
    obtain ⟨l, hl⟩ := ih
    cases rs with
    | nil => exact ⟨l, hl⟩
    | cons r rest =>
      rw [hl]
      exact ⟨_, rfl⟩

theorem synthesize_multiarg_full_ok (cat : Catalog K) (sources : List (String × String))
    (goalType : String) (maxCost : K) (preferMultiarg : Bool) (fuel : Nat) :
    ∃ z, synthesize_multiarg_full cat sources goalType maxCost preferMultiarg fuel =
      Except.ok z := by
  obtain ⟨la, hla⟩ := strategyAAux_ok cat sources goalType maxCost fuel
    (cat.funcsReturning goalType)
  obtain ⟨lb, hlb⟩ := strategyBAux_ok cat sources goalType maxCost fuel cat.productTypes
  obtain ⟨lc, hlc⟩ := strategyCAux_ok cat goalType maxCost fuel sources
  rw [synthesize_multiarg_full, strategyA, hla, strategyB, hlb, strategyC, hlc]
  exact ⟨_, rfl⟩

end OkLemmas

section SelectionLemmas

variable {K : Type} [LinearOrderedCommRing K]

theorem sortByKey_cons_of_ne_nil {α : Type} {key : α → K} {l : List α} (h : l ≠ []) :
    ∃ m rest, sortByKey key l = m :: rest := by
  cases hs : sortByKey key l with
  | nil => exact absurd (sortByKey_eq_nil.mp hs) h
  | cons m rest => exact ⟨m, rest, rfl⟩

/-- C1: synthesize_multiarg_full gathers the candidates of the three
strategies; with prefer_multiarg it returns a cheapest DAG of the first
non-empty strategy in the order A, B, C, otherwise a DAG of globally
minimal total cost, and it returns none exactly when all three strategies
produce no candidate. -/
theorem c1_strategy_selection (cat : Catalog K) (sources : List (String × String))
    (goalType : String) (maxCost : K) (preferMultiarg : Bool) (fuel : Nat)
    (la lb lc : List (SynthesisDAG K))
    (ha : strategyA cat sources goalType maxCost fuel = Except.ok la)
    (hb : strategyB cat sources goalType maxCost fuel = Except.ok lb)
    (hc : strategyC cat sources goalType maxCost fuel = Except.ok lc) :
    ∃ r, synthesize_multiarg_full cat sources goalType maxCost preferMultiarg fuel =
        Except.ok r ∧
      (r = Option.none ↔ la = [] ∧ lb = [] ∧ lc = []) ∧
      (preferMultiarg = true → la ≠ [] →
        ∃ d, r = some d ∧ d ∈ la ∧ ∀ x ∈ la, d.total_cost ≤ x.total_cost) ∧
      (preferMultiarg = true → la = [] → lb ≠ [] →
        ∃ d, r = some d ∧ d ∈ lb ∧ ∀ x ∈ lb, d.total_cost ≤ x.total_cost) ∧
      (preferMultiarg = true → la = [] → lb = [] → lc ≠ [] →
        ∃ d, r = some d ∧ d ∈ lc ∧ ∀ x ∈ lc, d.total_cost ≤ x.total_cost) ∧
      (preferMultiarg = false → la ++ lb ++ lc ≠ [] →
        ∃ d, r = some d ∧ d ∈ la ++ lb ++ lc ∧
          ∀ x ∈ la ++ lb ++ lc, d.total_cost ≤ x.total_cost) := by
  rw [synthesize_multiarg_full, ha, hb, hc]
  dsimp only
  cases preferMultiarg with
  | false =>
    refine ⟨(sortByKey SynthesisDAG.total_cost (la ++ lb ++ lc)).head?, rfl, ?_, ?_, ?_, ?_, ?_⟩
    · constructor
      · intro hr
        have : sortByKey SynthesisDAG.total_cost (la ++ lb ++ lc) = [] := by
          cases hs : sortByKey SynthesisDAG.total_cost (la ++ lb ++ lc) with
          | nil => rfl
          | cons m rest => rw [hs] at hr; cases hr
        have h2 := sortByKey_eq_nil.mp this
        rcases List.append_eq_nil.mp h2 with ⟨h3, h4⟩
        rcases List.append_eq_nil.mp h3 with ⟨h5, h6⟩
        exact ⟨h5, h6, h4⟩
      · rintro ⟨h1, h2, h3⟩
        rw [h1, h2, h3]
        rfl
    · intro hpf
      cases hpf
    · intro hpf
      cases hpf
    · intro hpf
      cases hpf
    · intro _ hne
      have hex : ∃ m rest,
          sortByKey SynthesisDAG.total_cost (la ++ lb ++ lc) = m :: rest :=
        sortByKey_cons_of_ne_nil hne
      obtain ⟨m, rest, hs⟩ := hex
      have hmin := head_min_of_sortByKey hs
      rw [hs]
      exact ⟨m, rfl, hmin.1, hmin.2⟩
  | true =>
    refine ⟨(sortByKey SynthesisDAG.total_cost la ++ sortByKey SynthesisDAG.total_cost lb ++
      sortByKey SynthesisDAG.total_cost lc).head?, rfl, ?_, ?_, ?_, ?_, ?_⟩
    · constructor
      · intro hr
        have : sortByKey SynthesisDAG.total_cost la ++ sortByKey SynthesisDAG.total_cost lb ++
            sortByKey SynthesisDAG.total_cost lc = [] := by
          cases hs : sortByKey SynthesisDAG.total_cost la ++
              sortByKey SynthesisDAG.total_cost lb ++ sortByKey SynthesisDAG.total_cost lc with
          | nil => rfl
          | cons m rest => rw [hs] at hr; cases hr
        rcases List.append_eq_nil.mp this with ⟨h3, h4⟩
        rcases List.append_eq_nil.mp h3 with ⟨h5, h6⟩
        exact ⟨sortByKey_eq_nil.mp h5, sortByKey_eq_nil.mp h6, sortByKey_eq_nil.mp h4⟩
      · rintro ⟨h1, h2, h3⟩
        rw [h1, h2, h3]
        rfl
    · intro _ hne
      have hex : ∃ m rest, sortByKey SynthesisDAG.total_cost la = m :: rest :=
        sortByKey_cons_of_ne_nil hne
      obtain ⟨m, rest, hs⟩ := hex
      have hmin := head_min_of_sortByKey hs
      rw [hs]
      exact ⟨m, rfl, hmin.1, hmin.2⟩
    · intro _ hla hne
      rw [hla]
      have hex : ∃ m rest, sortByKey SynthesisDAG.total_cost lb = m :: rest :=
        sortByKey_cons_of_ne_nil hne
      obtain ⟨m, rest, hs⟩ := hex
      have hmin := head_min_of_sortByKey hs
      rw [hs]
      exact ⟨m, rfl, hmin.1, hmin.2⟩
    · intro _ hla hlb hne
      rw [hla, hlb]
      have hex : ∃ m rest, sortByKey SynthesisDAG.total_cost lc = m :: rest :=
        sortByKey_cons_of_ne_nil hne
      obtain ⟨m, rest, hs⟩ := hex
      have hmin := head_min_of_sortByKey hs
      rw [hs]
      exact ⟨m, rfl, hmin.1, hmin.2⟩
    · intro hpf
      cases hpf

end SelectionLemmas

section ArgSupply

variable {K : Type} [LinearOrderedCommRing K]

/-- How Strategy A supplies the required argument types, stated
denotationally: walking the required types left to right, each argument is
supplied either (i) by a source of exactly the required type that has not
been consumed by an earlier direct match (direct matches consume their
source), or (ii) by a backward search from some source within the
remaining budget (the budget decreases by the accumulated search costs;
the searched source is not marked consumed). -/
def ArgsOK (cat : Catalog K) (sources : List (String × String)) (fuel : Nat)
    (remaining : K) :
    List String → List String → K → List (String × SynthesisResult K) → Prop
  | [], _, _, args => args = []
  | rt :: rest, used, tc, args =>
    ∃ sid res tl, args = (sid, res) :: tl ∧
      ((res = identityResult rt ∧ (sid, rt) ∈ sources ∧ sid ∉ used ∧
        ArgsOK cat sources fuel remaining rest (used ++ [sid]) tc tl) ∨
       ((∃ st rs, (sid, st) ∈ sources ∧
          synthesize_backward cat st rt (remaining - tc) 10 fuel =
            Except.ok (res :: rs)) ∧
        ArgsOK cat sources fuel remaining rest used (tc + res.cost) tl))

theorem firstSearchArg_some (cat : Catalog K) (rt : String) (budget : K) (fuel : Nat) :
    ∀ {srcs : List (String × String)} {sid : String} {r : SynthesisResult K},
      firstSearchArg cat rt budget fuel srcs = Except.ok (some (sid, r)) →
      ∃ st rs, (sid, st) ∈ srcs ∧
        synthesize_backward cat st rt budget 10 fuel = Except.ok (r :: rs) := by
  intro srcs
  induction srcs with
  | nil =>
    intro sid r h
    rw [firstSearchArg] at h
    cases h
  | cons sv tl ih =>
    intro sid r h
    obtain ⟨sid0, st0⟩ := sv
    rw [firstSearchArg] at h
    cases hsb : synthesize_backward cat st0 rt budget 10 fuel with
    | error e =>
      rw [hsb] at h
      cases h
    | ok l =>
      rw [hsb] at h
      cases l with
      | nil =>
        obtain ⟨st, rs, hmem, heq⟩ := ih h
        exact ⟨st, rs, List.mem_cons_of_mem _ hmem, heq⟩
      | cons r0 rs0 =>
        simp only [Except.ok.injEq, Option.some.injEq, Prod.mk.injEq] at h
        obtain ⟨h1, h2⟩ := h
        rw [← h1, ← h2]
        exact ⟨st0, rs0, List.mem_cons_self _ _, hsb⟩

theorem multiargLoop_spec (cat : Catalog K) (sources : List (String × String))
    (remaining : K) (fuel : Nat) :
    ∀ (reqs : List String) (used : List String) (tc cf : K)
      (acc args : List (String × SynthesisResult K)) (tc2 cf2 : K),
      multiargLoop cat sources remaining fuel reqs used tc cf acc =
        Except.ok (some (args, tc2, cf2)) →
      ∃ newArgs, args = acc ++ newArgs ∧
        ArgsOK cat sources fuel remaining reqs used tc newArgs := by
  intro reqs
  induction reqs with
  | nil =>
    intro used tc cf acc args tc2 cf2 h
    rw [multiargLoop] at h
    simp only [Except.ok.injEq, Option.some.injEq, Prod.mk.injEq] at h
    refine ⟨[], ?_, rfl⟩
    rw [List.append_nil]
    exact h.1.symm
  | cons rt rest ih =>
    intro used tc cf acc args tc2 cf2 h
    rw [multiargLoop] at h
    cases hfind : sources.find? (fun sv => sv.2 == rt && !(used.contains sv.1)) with
    | some sv =>
      rw [hfind] at h
      obtain ⟨new2, hargs, hok⟩ := ih _ _ _ _ _ _ _ h
      have hpred := List.find?_some hfind
      have hmem := List.mem_of_find?_eq_some hfind
      simp only [Bool.and_eq_true, beq_iff_eq, Bool.not_eq_true'] at hpred
      refine ⟨(sv.1, identityResult rt) :: new2, ?_, ?_⟩
      · rw [hargs, List.append_cons, List.append_assoc]
        simp
      · refine ⟨sv.1, identityResult rt, new2, rfl, Or.inl ⟨rfl, ?_, ?_, hok⟩⟩
        · have : sv = (sv.1, rt) := by
            rw [Prod.ext_iff]
            exact ⟨rfl, hpred.1⟩
          rw [← this]
          exact hmem
        · intro hmem2
          have : used.contains sv.1 = true := List.elem_eq_true_of_mem hmem2
          rw [this] at hpred
          cases hpred.2
    | none =>
      rw [hfind] at h
      cases hfsa : firstSearchArg cat rt (remaining - tc) fuel sources with
      | error e =>
        rw [hfsa] at h
        cases h
      | ok z =>
        rw [hfsa] at h
        cases z with
        | none => cases h
        | some sr =>
          obtain ⟨sid, r⟩ := sr
          obtain ⟨new2, hargs, hok⟩ := ih _ _ _ _ _ _ _ h
          refine ⟨(sid, r) :: new2, ?_, ?_⟩
          · rw [hargs, List.append_cons, List.append_assoc]
            simp
          · exact ⟨sid, r, new2, rfl,
              Or.inr ⟨firstSearchArg_some cat rt (remaining - tc) fuel hfsa, hok⟩⟩

/-- C2 (amended): in Strategy A, each required argument type is supplied
either by a direct source of exactly that type, never reusing a source
already consumed by an earlier direct match, or by a single-source
backward search within the remaining cost budget from some source -
including sources already consumed (only direct matches consume
sources). -/
theorem c2_strategyA_argument_supply (cat : Catalog K)
    (sources : List (String × String)) (g : Func K) (maxCost : K) (fuel : Nat)
    (args : List (String × SynthesisResult K)) (tc2 cf2 : K)
    (h : multiargLoop cat sources (maxCost - g.cost) fuel g.dom.domTypes []
      g.cost g.conf [] = Except.ok (some (args, tc2, cf2))) :
    ArgsOK cat sources fuel (maxCost - g.cost) g.dom.domTypes [] g.cost args := by
  obtain ⟨newArgs, hargs, hok⟩ := multiargLoop_spec cat sources (maxCost - g.cost) fuel
    g.dom.domTypes [] g.cost g.conf [] args tc2 cf2 h
  rw [List.nil_append] at hargs
  rw [hargs]
  exact hok

end ArgSupply

section Ordering

variable {K : Type} [LinearOrderedCommRing K]

/-- C3: the list returned by synthesize_backward is the stable ascending
sort by cost of the list of results in discovery order: it is sorted
nondecreasing in cost, and the results of any fixed cost appear in
discovery order. -/
theorem c3_result_ordering (cat : Catalog K) (srcType goalType : String)
    (maxCost : K) (maxResults fuel : Nat) (discovered : List (SynthesisResult K))
    (h : sbSearch cat srcType goalType maxCost maxResults fuel = Except.ok discovered) :
    synthesize_backward cat srcType goalType maxCost maxResults fuel =
        Except.ok (sortByKey SynthesisResult.cost discovered) ∧
      List.Sorted (fun a b : SynthesisResult K => a.cost ≤ b.cost)
        (sortByKey SynthesisResult.cost discovered) ∧
      ∀ c : K,
        (sortByKey SynthesisResult.cost discovered).filter
            (fun r => decide (r.cost = c)) =
          discovered.filter (fun r => decide (r.cost = c)) := by
  refine ⟨?_, ?_, ?_⟩
  · rw [synthesize_backward, h]
    rfl
  · exact pairwise_sortByKey discovered
  · intro c
    exact filter_sortByKey discovered c

end Ordering

section CostAccounting

variable {K : Type} [LinearOrderedCommRing K]

/-- Sum of f.cost over every function appearing in every node path of a
DAG, counted once per occurrence. -/
def nodes_path_cost (d : SynthesisDAG K) : K :=
  (d.nodes.map (fun kn => path_cost kn.2.path)).sum

/-- The cost of the function attached to the goal node when that node has
an empty path (the aggregator of the direct multi-arg strategy, which
appears in no node path); zero otherwise. -/
def goal_func_cost (d : SynthesisDAG K) : K :=
  match List.lookup d.goal_node d.nodes with
  | some n =>
    match n.path, n.func with
    | [], some f => f.cost
    | _, _ => 0
  | Option.none => 0

/-- The corrected cost invariant of a synthesized DAG. -/
def DagCostOK (d : SynthesisDAG K) : Prop :=
  d.total_cost = nodes_path_cost d + goal_func_cost d

theorem mem_dictInsert {β : Type} :
    ∀ {l : List (String × β)} {k : String} {v : β} {kn : String × β},
      kn ∈ dictInsert l k v → kn = (k, v) ∨ kn ∈ l := by
  intro l
  induction l with
  | nil =>
    intro k v kn h
    exact Or.inl (List.mem_singleton.mp h)
  | cons kv0 t ih =>
    intro k v kn h
    obtain ⟨k0, v0⟩ := kv0
    simp only [dictInsert] at h
    by_cases hk : k0 = k
    · rw [if_pos hk] at h
      rcases List.mem_cons.mp h with h | h
      · exact Or.inl h
      · exact Or.inr (List.mem_cons_of_mem _ h)
    · rw [if_neg hk] at h
      rcases List.mem_cons.mp h with h | h
      · exact Or.inr (h ▸ List.mem_cons_self _ _)
      · rcases ih h with h2 | h2
        · exact Or.inl h2
        · exact Or.inr (List.mem_cons_of_mem _ h2)

theorem lookup_dictInsert_self {β : Type} :
    ∀ (l : List (String × β)) (k : String) (v : β),
      List.lookup k (dictInsert l k v) = some v := by
  intro l
  induction l with
  | nil =>
    intro k v
    simp [dictInsert, List.lookup]
  | cons kv0 t ih =>
    intro k v
    obtain ⟨k0, v0⟩ := kv0
    simp only [dictInsert]
    by_cases hk : k0 = k
    · rw [if_pos hk]
      simp [List.lookup]
    · rw [if_neg hk]
      rw [List.lookup_cons]
      have hbeq : (k == k0) = false := by
        rw [beq_eq_false_iff_ne]
        exact fun heq => hk heq.symm
      rw [hbeq]
      exact ih k v

theorem mem_foldl_dictInsert {β γ : Type} (key : γ → String) (val : γ → β) :
    ∀ (xs : List γ) (l : List (String × β)) (kn : String × β),
      kn ∈ xs.foldl (fun acc x => dictInsert acc (key x) (val x)) l →
      (∃ x ∈ xs, kn = (key x, val x)) ∨ kn ∈ l := by
  intro xs
  induction xs with
  | nil =>
    intro l kn h
    exact Or.inr h
  | cons x xt ih =>
    intro l kn h
    simp only [List.foldl_cons] at h
    rcases ih _ kn h with h2 | h2
    · obtain ⟨y, hy, hkn⟩ := h2
      exact Or.inl ⟨y, List.mem_cons_of_mem _ hy, hkn⟩
    · rcases mem_dictInsert h2 with h3 | h3
      · exact Or.inl ⟨x, List.mem_cons_self _ _, h3⟩
      · exact Or.inr h3

/-- Sum of the path costs over an insertion-ordered node dictionary. -/
def dictPathSum (l : List (String × DAGNode K)) : K :=
  (l.map (fun kn => path_cost kn.2.path)).sum

theorem dictPathSum_eq_zero {l : List (String × DAGNode K)}
    (h : ∀ kn ∈ l, kn.2.path = []) : dictPathSum l = 0 := by
  induction l with
  | nil => rfl
  | cons kn t ih =>
    simp only [dictPathSum, List.map_cons, List.sum_cons]
    rw [h kn (List.mem_cons_self _ _), path_cost_nil]
    have ht := ih (fun x hx => h x (List.mem_cons_of_mem _ hx))
    rw [dictPathSum] at ht
    rw [ht]
    ring

/-- Inserting a node whose key can only collide with zero-path entries
adds exactly the new node path cost to the dictionary path sum, whether
the insert appends or replaces. -/
theorem dictPathSum_dictInsert_zero :
    ∀ (l : List (String × DAGNode K)) (k : String) (v : DAGNode K),
      (∀ kn ∈ l, kn.1 = k → path_cost kn.2.path = 0) →
      dictPathSum (dictInsert l k v) = dictPathSum l + path_cost v.path := by
  intro l
  induction l with
  | nil =>
    intro k v _
    simp only [dictInsert, dictPathSum, List.map_cons, List.map_nil, List.sum_cons,
      List.sum_nil]
    ring
  | cons kv0 t ih =>
    intro k v h
    obtain ⟨k0, v0⟩ := kv0
    simp only [dictInsert]
    by_cases hk : k0 = k
    · rw [if_pos hk]
      simp only [dictPathSum, List.map_cons, List.sum_cons]
      rw [h (k0, v0) (List.mem_cons_self _ _) hk]
      ring
    · rw [if_neg hk]
      simp only [dictPathSum, List.map_cons, List.sum_cons]
      have ht := ih k v (fun kn hkn => h kn (List.mem_cons_of_mem _ hkn))
      rw [dictPathSum, dictPathSum] at ht
      rw [ht]
      ring

/-- Folding inserts whose keys are pairwise distinct and collide at most
with zero-path entries adds exactly the sum of the inserted path costs. -/
theorem foldl_dictInsert_pathSum :
    ∀ (xs : List (String × DAGNode K)) (l : List (String × DAGNode K)),
      (xs.map (fun kn => kn.1)).Nodup →
      (∀ kn ∈ l, kn.1 ∈ xs.map (fun kn => kn.1) → path_cost kn.2.path = 0) →
      dictPathSum (xs.foldl (fun acc kn => dictInsert acc kn.1 kn.2) l) =
        dictPathSum l + (xs.map (fun kn => path_cost kn.2.path)).sum := by
  intro xs
  induction xs with
  | nil =>
    intro l _ _
    simp only [List.foldl_nil, List.map_nil, List.sum_nil]
    ring
  | cons x xt ih =>
    intro l hnd hz
    simp only [List.foldl_cons]
    rw [List.map_cons] at hnd
    have hx1 : x.1 ∉ xt.map (fun kn => kn.1) := (List.nodup_cons.mp hnd).1
    have hndt := (List.nodup_cons.mp hnd).2
    have hz2 : ∀ kn ∈ dictInsert l x.1 x.2, kn.1 ∈ xt.map (fun kn => kn.1) →
        path_cost kn.2.path = 0 := by
      intro kn hkn hmem
      rcases mem_dictInsert hkn with hkn2 | hkn2
      · rw [hkn2] at hmem
        exact absurd hmem hx1
      · exact hz kn hkn2 (List.mem_cons_of_mem _ hmem)
    have hzk : ∀ kn ∈ l, kn.1 = x.1 → path_cost kn.2.path = 0 := by
      intro kn hkn hk
      refine hz kn hkn ?_
      rw [hk]
      exact List.mem_cons_self _ _
    rw [ih (dictInsert l x.1 x.2) hndt hz2, dictPathSum_dictInsert_zero l x.1 x.2 hzk]
    simp only [List.map_cons, List.sum_cons]
    ring

/-- Every node of the source-node dictionary carries an empty path. -/
theorem sourcesBase_paths (sources : List (String × String)) :
    ∀ kn ∈ sources.foldl
      (fun acc sv => dictInsert acc sv.1
        (⟨sv.1, "source", sv.2, Option.none, [], []⟩ : DAGNode K)) [],
      kn.2.path = [] := by
  intro kn h
  rcases mem_foldl_dictInsert (fun sv : String × String => sv.1)
    (fun sv : String × String => (⟨sv.1, "source", sv.2, Option.none, [], []⟩ : DAGNode K))
    sources [] kn h with h2 | h2
  · obtain ⟨sv, _, hkn⟩ := h2
    rw [hkn]
  · cases h2

theorem digitChar_isDigit (m : Nat) (hm : m < 10) :
    (Nat.digitChar m).isDigit = true := by
  have h : ∀ i : Fin 10, (Nat.digitChar i.1).isDigit = true := by decide
  exact h ⟨m, hm⟩

/-- Decimal value of a digit character. -/
def digitVal (c : Char) : Nat := c.toNat - 48

theorem digitVal_digitChar (m : Nat) (hm : m < 10) :
    digitVal (Nat.digitChar m) = m := by
  have h : ∀ i : Fin 10, digitVal (Nat.digitChar i.1) = i.1 := by decide
  exact h ⟨m, hm⟩

/-- Decode a most-significant-first decimal digit string. -/
def decDigits (l : List Char) : Nat :=
  l.foldl (fun a c => a * 10 + digitVal c) 0

theorem toDigitsCore_shift (b : Nat) :
    ∀ (f n : Nat) (ds : List Char),
      Nat.toDigitsCore b f n ds = Nat.toDigitsCore b f n [] ++ ds := by
  intro f
  induction f with
  | zero =>
    intro n ds
    rfl
  | succ f ih =>
    intro n ds
    simp only [Nat.toDigitsCore]
    by_cases h0 : n / b = 0
    · rw [if_pos h0, if_pos h0]
      rfl
    · rw [if_neg h0, if_neg h0]
      rw [ih (n / b) (Nat.digitChar (n % b) :: ds), ih (n / b) [Nat.digitChar (n % b)]]
      simp

theorem decDigits_toDigitsCore :
    ∀ (f n : Nat), n < f → decDigits (Nat.toDigitsCore 10 f n []) = n := by
  intro f
  induction f with
  | zero =>
    intro n hn
    omega
  | succ f ih =>
    intro n hn
    simp only [Nat.toDigitsCore]
    by_cases h0 : n / 10 = 0
    · rw [if_pos h0]
      have hlt : n < 10 := by omega
      have hmod : n % 10 = n := by omega
      rw [hmod]
      show 0 * 10 + digitVal (Nat.digitChar n) = n
      rw [digitVal_digitChar n hlt]
      omega
    · rw [if_neg h0]
      rw [toDigitsCore_shift 10 f (n / 10) [Nat.digitChar (n % 10)]]
      show decDigits (Nat.toDigitsCore 10 f (n / 10) [] ++ [Nat.digitChar (n % 10)]) = n
      rw [decDigits, List.foldl_append]
      show (decDigits (Nat.toDigitsCore 10 f (n / 10) [])) * 10 +
        digitVal (Nat.digitChar (n % 10)) = n
      rw [ih (n / 10) (by omega), digitVal_digitChar (n % 10) (by omega)]
      omega

theorem toDigitsCore_digits :
    ∀ (f n : Nat) (ds : List Char) (c : Char),
      c ∈ Nat.toDigitsCore 10 f n ds → c ∈ ds ∨ c.isDigit = true := by
  intro f
  induction f with
  | zero =>
    intro n ds c h
    exact Or.inl h
  | succ f ih =>
    intro n ds c h
    simp only [Nat.toDigitsCore] at h
    by_cases h0 : n / 10 = 0
    · rw [if_pos h0] at h
      rcases List.mem_cons.mp h with h2 | h2
      · exact Or.inr (h2 ▸ digitChar_isDigit (n % 10) (by omega))
      · exact Or.inl h2
    · rw [if_neg h0] at h
      rcases ih (n / 10) _ c h with h2 | h2
      · rcases List.mem_cons.mp h2 with h3 | h3
        · exact Or.inr (h3 ▸ digitChar_isDigit (n % 10) (by omega))
        · exact Or.inl h3
      · exact Or.inr h2

/-- Every character of the decimal rendering of a Nat is a digit. -/
theorem toString_nat_digits (n : Nat) :
    ∀ c ∈ (toString n).data, c.isDigit = true := by
  intro c hc
  have h : (toString n).data = Nat.toDigitsCore 10 (n + 1) n [] := rfl
  rw [h] at hc
  rcases toDigitsCore_digits (n + 1) n [] c hc with h2 | h2
  · cases h2
  · exact h2

/-- The decimal rendering of a Nat determines it. -/
theorem toString_nat_data_inj {i j : Nat}
    (h : (toString i).data = (toString j).data) : i = j := by
  have hd : Nat.toDigitsCore 10 (i + 1) i [] = Nat.toDigitsCore 10 (j + 1) j [] := h
  have hi := decDigits_toDigitsCore (i + 1) i (by omega)
  have hj := decDigits_toDigitsCore (j + 1) j (by omega)
  rw [← hi, ← hj, hd]

theorem revSep :
    ∀ (e1 e2 r1 r2 : List Char),
      (∀ c ∈ e1, c.isDigit = true) → (∀ c ∈ e2, c.isDigit = true) →
      e1 ++ '_' :: r1 = e2 ++ '_' :: r2 → e1 = e2 := by
  intro e1
  induction e1 with
  | nil =>
    intro e2 r1 r2 _ h2 heq
    cases e2 with
    | nil => rfl
    | cons c2 t2 =>
      rw [List.nil_append] at heq
      injection heq with hc _
      have hdig := h2 c2 (List.mem_cons_self _ _)
      rw [← hc] at hdig
      exact absurd hdig (by decide)
  | cons c1 t1 ih =>
    intro e2 r1 r2 h1 h2 heq
    cases e2 with
    | nil =>
      rw [List.nil_append] at heq
      injection heq with hc _
      have hdig := h1 c1 (List.mem_cons_self _ _)
      rw [hc] at hdig
      exact absurd hdig (by decide)
    | cons c2 t2 =>
      injection heq with hc ht
      rw [hc, ih t2 r1 r2 (fun c hcm => h1 c (List.mem_cons_of_mem _ hcm))
        (fun c hcm => h2 c (List.mem_cons_of_mem _ hcm)) ht]

/-- Two strings ending in an underscore-separated decimal suffix agree on
the suffix whenever they are equal: the suffix holds no underscore, so the
last underscore splits both the same way. -/
theorem digit_suffix_eq (s1 s2 d1 d2 : List Char)
    (hd1 : ∀ c ∈ d1, c.isDigit = true) (hd2 : ∀ c ∈ d2, c.isDigit = true)
    (h : s1 ++ '_' :: d1 = s2 ++ '_' :: d2) : d1 = d2 := by
  have hrev := congrArg List.reverse h
  rw [List.reverse_append, List.reverse_append, List.reverse_cons,
    List.reverse_cons, List.append_assoc, List.append_assoc,
    List.singleton_append, List.singleton_append] at hrev
  have hr := revSep d1.reverse d2.reverse s1.reverse s2.reverse
    (fun c hc => hd1 c (List.mem_reverse.mp hc))
    (fun c hc => hd2 c (List.mem_reverse.mp hc)) hrev
  exact List.reverse_inj.mp hr

/-- The node id given to the transform node of position i. -/
def transformId (rt : String) (i : Nat) : String :=
  "transform_" ++ rt ++ "_" ++ toString i

theorem transformId_data (rt : String) (i : Nat) :
    (transformId rt i).data =
      (("transform_" : String).data ++ rt.data) ++ '_' :: (toString i).data := by
  show ((("transform_" ++ rt) ++ "_") ++ toString i).data = _
  rw [String.data_append, String.data_append, String.data_append, List.append_assoc]
  rfl

/-- Distinct positions give distinct transform node ids: the decimal index
after the last underscore cannot absorb an underscore. -/
theorem transformId_inj_index {rt1 rt2 : String} {i j : Nat}
    (h : transformId rt1 i = transformId rt2 j) : i = j := by
  have hd := congrArg String.data h
  rw [transformId_data, transformId_data] at hd
  exact toString_nat_data_inj (digit_suffix_eq _ _ _ _
    (fun c hc => toString_nat_digits i c hc)
    (fun c hc => toString_nat_digits j c hc) hd)

theorem transformId_ne_goal (rt : String) (i : Nat) : transformId rt i ≠ "goal" := by
  intro h
  have hd := congrArg String.data h
  rw [transformId_data] at hd
  have ht : ("transform_" : String).data =
      't' :: ['r', 'a', 'n', 's', 'f', 'o', 'r', 'm', '_'] := rfl
  have hg : ("goal" : String).data = 'g' :: ['o', 'a', 'l'] := rfl
  rw [ht, hg] at hd
  injection hd with h1 _
  exact absurd h1 (by decide)

theorem transformId_ne_aggregate (rt : String) (i : Nat) :
    transformId rt i ≠ "aggregate" := by
  intro h
  have hd := congrArg String.data h
  rw [transformId_data] at hd
  have ht : ("transform_" : String).data =
      't' :: ['r', 'a', 'n', 's', 'f', 'o', 'r', 'm', '_'] := rfl
  have hg : ("aggregate" : String).data =
      'a' :: ['g', 'g', 'r', 'e', 'g', 'a', 't', 'e'] := rfl
  rw [ht, hg] at hd
  injection hd with h1 _
  exact absurd h1 (by decide)

/-- Every key of the multiarg transform-node list is a transform id of
position at least i. -/
theorem multiargNodes_key_shape (g : Func K) :
    ∀ (args : List (String × SynthesisResult K)) (i : Nat) (kn : String × DAGNode K),
      kn ∈ (multiargNodes g i args).1 → ∃ rt j, i ≤ j ∧ kn.1 = transformId rt j := by
  intro args
  induction args with
  | nil =>
    intro i kn h
    cases h
  | cons a t ih =>
    intro i kn h
    obtain ⟨sid, res⟩ := a
    rw [multiargNodes] at h
    cases hp : res.path with
    | nil =>
      rw [hp] at h
      dsimp only at h
      obtain ⟨rt, j, hij, hkn⟩ := ih (i + 1) kn h
      exact ⟨rt, j, by omega, hkn⟩
    | cons f p =>
      rw [hp] at h
      dsimp only at h
      rcases List.mem_cons.mp h with h2 | h2
      · refine ⟨g.dom.domTypes.getD i "", i, le_refl i, ?_⟩
        rw [h2]
        exact rfl
      · obtain ⟨rt, j, hij, hkn⟩ := ih (i + 1) kn h2
        exact ⟨rt, j, by omega, hkn⟩

theorem multiargNodes_keys_nodup (g : Func K) :
    ∀ (args : List (String × SynthesisResult K)) (i : Nat),
      ((multiargNodes g i args).1.map (fun kn => kn.1)).Nodup := by
  intro args
  induction args with
  | nil =>
    intro i
    exact List.nodup_nil
  | cons a t ih =>
    intro i
    obtain ⟨sid, res⟩ := a
    rw [multiargNodes]
    cases hp : res.path with
    | nil =>
      dsimp only
      exact ih (i + 1)
    | cons f p =>
      dsimp only
      rw [List.map_cons]
      refine List.nodup_cons.mpr ⟨?_, ih (i + 1)⟩
      intro hmem
      rcases List.mem_map.mp hmem with ⟨kn, hkn, hkey⟩
      obtain ⟨rt, j, hij, hkn1⟩ := multiargNodes_key_shape g t (i + 1) kn hkn
      rw [hkn1] at hkey
      have hji : j = i := transformId_inj_index hkey
      omega

/-- Every key of the product transform-node list is a transform id of
position at least i. -/
theorem productNodes_key_shape :
    ∀ (comps : List (String × String × SynthesisResult K)) (i : Nat)
      (kn : String × DAGNode K),
      kn ∈ (productNodes (K := K) i comps).1 →
      ∃ rt j, i ≤ j ∧ kn.1 = transformId rt j := by
  intro comps
  induction comps with
  | nil =>
    intro i kn h
    cases h
  | cons a t ih =>
    intro i kn h
    obtain ⟨sid, comp, res⟩ := a
    rw [productNodes] at h
    cases hp : res.path with
    | nil =>
      rw [hp] at h
      dsimp only at h
      obtain ⟨rt, j, hij, hkn⟩ := ih (i + 1) kn h
      exact ⟨rt, j, by omega, hkn⟩
    | cons f p =>
      rw [hp] at h
      dsimp only at h
      rcases List.mem_cons.mp h with h2 | h2
      · refine ⟨comp, i, le_refl i, ?_⟩
        rw [h2]
        exact rfl
      · obtain ⟨rt, j, hij, hkn⟩ := ih (i + 1) kn h2
        exact ⟨rt, j, by omega, hkn⟩

theorem productNodes_keys_nodup :
    ∀ (comps : List (String × String × SynthesisResult K)) (i : Nat),
      ((productNodes (K := K) i comps).1.map (fun kn => kn.1)).Nodup := by
  intro comps
  induction comps with
  | nil =>
    intro i
    exact List.nodup_nil
  | cons a t ih =>
    intro i
    obtain ⟨sid, comp, res⟩ := a
    rw [productNodes]
    cases hp : res.path with
    | nil =>
      dsimp only
      exact ih (i + 1)
    | cons f p =>
      dsimp only
      rw [List.map_cons]
      refine List.nodup_cons.mpr ⟨?_, ih (i + 1)⟩
      intro hmem
      rcases List.mem_map.mp hmem with ⟨kn, hkn, hkey⟩
      obtain ⟨rt, j, hij, hkn1⟩ := productNodes_key_shape t (i + 1) kn hkn
      rw [hkn1] at hkey
      have hji : j = i := transformId_inj_index hkey
      omega

theorem sum_map_zero {γ : Type} (l : List γ) :
    (l.map (fun _ => (0 : K))).sum = 0 := by
  induction l with
  | nil => rfl
  | cons x t ih => simp [ih]

theorem multiargNodes_path_sum (g : Func K) :
    ∀ (args : List (String × SynthesisResult K)) (i : Nat),
      ((multiargNodes g i args).1.map (fun kn => path_cost kn.2.path)).sum =
        (args.map (fun a => path_cost a.2.path)).sum := by
  intro args
  induction args with
  | nil => intro i; rfl
  | cons a t ih =>
    intro i
    obtain ⟨sid, res⟩ := a
    rw [multiargNodes]
    cases hp : res.path with
    | nil =>
      dsimp only
      rw [ih (i + 1)]
      simp [hp, path_cost_nil]
    | cons f p =>
      dsimp only
      simp only [List.map_cons, List.sum_cons]
      rw [ih (i + 1), hp]

theorem productNodes_path_sum :
    ∀ (comps : List (String × String × SynthesisResult K)) (i : Nat),
      ((productNodes (K := K) i comps).1.map (fun kn => path_cost kn.2.path)).sum =
        (comps.map (fun a => path_cost a.2.2.path)).sum := by
  intro comps
  induction comps with
  | nil => intro i; rfl
  | cons a t ih =>
    intro i
    obtain ⟨sid, comp, res⟩ := a
    rw [productNodes]
    cases hp : res.path with
    | nil =>
      dsimp only
      rw [ih (i + 1)]
      simp [hp, path_cost_nil]
    | cons f p =>
      dsimp only
      simp only [List.map_cons, List.sum_cons]
      rw [ih (i + 1), hp]

theorem multiargLoop_acct (cat : Catalog K) (sources : List (String × String))
    (remaining : K) (fuel : Nat) :
    ∀ (reqs : List String) (used : List String) (tc cf : K)
      (acc args : List (String × SynthesisResult K)) (tc2 cf2 : K),
      multiargLoop cat sources remaining fuel reqs used tc cf acc =
        Except.ok (some (args, tc2, cf2)) →
      ∃ newArgs, args = acc ++ newArgs ∧
        (∀ a ∈ newArgs, a.2.cost = path_cost a.2.path) ∧
        tc2 = tc + (newArgs.map (fun a => a.2.cost)).sum := by
  intro reqs
  induction reqs with
  | nil =>
    intro used tc cf acc args tc2 cf2 h
    rw [multiargLoop] at h
    simp only [Except.ok.injEq, Option.some.injEq, Prod.mk.injEq] at h
    refine ⟨[], ?_, ?_, ?_⟩
    · rw [List.append_nil]
      exact h.1.symm
    · intro a ha
      cases ha
    · rw [← h.2.1]
      simp
  | cons rt rest ih =>
    intro used tc cf acc args tc2 cf2 h
    rw [multiargLoop] at h
    cases hfind : sources.find? (fun sv => sv.2 == rt && !(used.contains sv.1)) with
    | some sv =>
      rw [hfind] at h
      obtain ⟨new2, hargs, hcosts, htc⟩ := ih _ _ _ _ _ _ _ h
      refine ⟨(sv.1, identityResult rt) :: new2, ?_, ?_, ?_⟩
      · rw [hargs, List.append_cons, List.append_assoc]
        simp
      · intro a ha
        rcases List.mem_cons.mp ha with ha | ha
        · rw [ha]
          rfl
        · exact hcosts a ha
      · rw [htc]
        simp [identityResult]
    | none =>
      rw [hfind] at h
      cases hfsa : firstSearchArg cat rt (remaining - tc) fuel sources with
      | error e =>
        rw [hfsa] at h
        cases h
      | ok z =>
        rw [hfsa] at h
        cases z with
        | none => cases h
        | some sr =>
          obtain ⟨sid, r⟩ := sr
          obtain ⟨new2, hargs, hcosts, htc⟩ := ih _ _ _ _ _ _ _ h
          obtain ⟨st, rs, _, hsb⟩ := firstSearchArg_some cat rt (remaining - tc) fuel hfsa
          have hr : r.cost = path_cost r.path :=
            (resultGood_of_sb_eq hsb r (List.mem_cons_self _ _)).1
          refine ⟨(sid, r) :: new2, ?_, ?_, ?_⟩
          · rw [hargs, List.append_cons, List.append_assoc]
            simp
          · intro a ha
            rcases List.mem_cons.mp ha with ha | ha
            · rw [ha]
              exact hr
            · exact hcosts a ha
          · rw [htc]
            simp only [List.map_cons, List.sum_cons]
            ring

theorem productLoop_acct (cat : Catalog K) (sources : List (String × String))
    (remaining : K) (fuel : Nat) :
    ∀ (reqs : List String) (tc cf : K)
      (acc args : List (String × String × SynthesisResult K)) (tc2 cf2 : K),
      productLoop cat sources remaining fuel reqs tc cf acc =
        Except.ok (some (args, tc2, cf2)) →
      ∃ newArgs, args = acc ++ newArgs ∧
        (∀ a ∈ newArgs, a.2.2.cost = path_cost a.2.2.path) ∧
        tc2 = tc + (newArgs.map (fun a => a.2.2.cost)).sum := by
  intro reqs
  induction reqs with
  | nil =>
    intro tc cf acc args tc2 cf2 h
    rw [productLoop] at h
    simp only [Except.ok.injEq, Option.some.injEq, Prod.mk.injEq] at h
    refine ⟨[], ?_, ?_, ?_⟩
    · rw [List.append_nil]
      exact h.1.symm
    · intro a ha
      cases ha
    · rw [← h.2.1]
      simp
  | cons comp rest ih =>
    intro tc cf acc args tc2 cf2 h
    rw [productLoop] at h
    cases hfind : sources.find? (fun sv => sv.2 == comp) with
    | some sv =>
      rw [hfind] at h
      obtain ⟨new2, hargs, hcosts, htc⟩ := ih _ _ _ _ _ _ h
      refine ⟨(sv.1, comp, identityResult comp) :: new2, ?_, ?_, ?_⟩
      · rw [hargs, List.append_cons, List.append_assoc]
        simp
      · intro a ha
        rcases List.mem_cons.mp ha with ha | ha
        · rw [ha]
          rfl
        · exact hcosts a ha
      · rw [htc]
        simp [identityResult]
    | none =>
      rw [hfind] at h
      cases hfsa : firstSearchArg cat comp (remaining - tc) fuel sources with
      | error e =>
        rw [hfsa] at h
        cases h
      | ok z =>
        rw [hfsa] at h
        cases z with
        | none => cases h
        | some sr =>
          obtain ⟨sid, r⟩ := sr
          obtain ⟨new2, hargs, hcosts, htc⟩ := ih _ _ _ _ _ _ h
          obtain ⟨st, rs, _, hsb⟩ := firstSearchArg_some cat comp (remaining - tc) fuel hfsa
          have hr : r.cost = path_cost r.path :=
            (resultGood_of_sb_eq hsb r (List.mem_cons_self _ _)).1
          refine ⟨(sid, comp, r) :: new2, ?_, ?_, ?_⟩
          · rw [hargs, List.append_cons, List.append_assoc]
            simp
          · intro a ha
            rcases List.mem_cons.mp ha with ha | ha
            · rw [ha]
              exact hr
            · exact hcosts a ha
          · rw [htc]
            simp only [List.map_cons, List.sum_cons]
            ring

theorem sum_cost_eq_sum_path {γ : Type} (l : List γ) (cost : γ → K) (pc : γ → K)
    (h : ∀ a ∈ l, cost a = pc a) :
    (l.map cost).sum = (l.map pc).sum := by
  induction l with
  | nil => rfl
  | cons a t ih =>
    simp only [List.map_cons, List.sum_cons]
    rw [h a (List.mem_cons_self _ _), ih (fun b hb => h b (List.mem_cons_of_mem _ hb))]

theorem build_dag_from_multiarg_cost (sources : List (String × String))
    (goalType : String) (g : Func K) (args : List (String × SynthesisResult K))
    (tc cf : K) (d : SynthesisDAG K)
    (hb : build_dag_from_multiarg sources goalType g args tc cf = Except.ok d) :
    d.total_cost = tc ∧
      nodes_path_cost d = (args.map (fun a => path_cost a.2.path)).sum ∧
      goal_func_cost d = g.cost := by
  obtain ⟨pf, hpf⟩ := make_composition_cons_ok
    (make_tuple (multiargNodes g 0 args).2.2) [make_func g]
  rw [build_dag_from_multiarg] at hb
  rw [hpf] at hb
  dsimp only at hb
  injection hb with hb2
  rw [← hb2]
  have hgz : ∀ kn ∈ (multiargNodes g 0 args).1.foldl
      (fun acc kn => dictInsert acc kn.1 kn.2)
      (sources.foldl (fun acc sv => dictInsert acc sv.1
        ⟨sv.1, "source", sv.2, Option.none, [], []⟩) []),
      kn.1 = "goal" → path_cost kn.2.path = 0 := by
    intro kn hkn hk
    rcases mem_foldl_dictInsert (fun kn : String × DAGNode K => kn.1)
      (fun kn : String × DAGNode K => kn.2) (multiargNodes g 0 args).1 _ kn hkn
      with h2 | h2
    · obtain ⟨x, hx, hkx⟩ := h2
      obtain ⟨rt, j, _, hxid⟩ := multiargNodes_key_shape g args 0 x hx
      rw [hkx] at hk
      have hx1 : x.1 = "goal" := hk
      rw [hxid] at hx1
      exact absurd hx1 (transformId_ne_goal rt j)
    · rw [sourcesBase_paths sources kn h2, path_cost_nil]
  refine ⟨rfl, ?_, ?_⟩
  · show dictPathSum (dictInsert ((multiargNodes g 0 args).1.foldl
      (fun acc kn => dictInsert acc kn.1 kn.2)
      (sources.foldl (fun acc sv => dictInsert acc sv.1
        ⟨sv.1, "source", sv.2, Option.none, [], []⟩) []))
      "goal" ⟨"goal", "goal", goalType, some g, (multiargNodes g 0 args).2.1, []⟩) = _
    rw [dictPathSum_dictInsert_zero _ _ _ hgz]
    rw [foldl_dictInsert_pathSum (multiargNodes g 0 args).1 _
      (multiargNodes_keys_nodup g args 0)
      (fun kn hkn _ => by rw [sourcesBase_paths sources kn hkn, path_cost_nil])]
    rw [dictPathSum_eq_zero (sourcesBase_paths sources)]
    rw [multiargNodes_path_sum g args 0]
    show (0 : K) + (args.map (fun a => path_cost a.2.path)).sum +
      path_cost ([] : List (Func K)) = _
    rw [path_cost_nil]
    ring
  · show goal_func_cost _ = g.cost
    rw [goal_func_cost]
    dsimp only
    rw [lookup_dictInsert_self]

theorem build_dag_from_product_cost (sources : List (String × String))
    (goalType : String) (comps : List (String × String × SynthesisResult K))
    (agg : SynthesisResult K) (tc cf : K) (d : SynthesisDAG K)
    (hb : build_dag_from_product sources goalType comps agg tc cf = Except.ok d) :
    d.total_cost = tc ∧
      nodes_path_cost d = (comps.map (fun a => path_cost a.2.2.path)).sum +
        path_cost agg.path ∧
      goal_func_cost d = 0 := by
  have hagz : ∀ kn ∈ (productNodes (K := K) 0 comps).1.foldl
      (fun acc kn => dictInsert acc kn.1 kn.2)
      (sources.foldl (fun acc sv => dictInsert acc sv.1
        ⟨sv.1, "source", sv.2, Option.none, [], []⟩) []),
      kn.1 = "aggregate" → path_cost kn.2.path = 0 := by
    intro kn hkn hk
    rcases mem_foldl_dictInsert (fun kn : String × DAGNode K => kn.1)
      (fun kn : String × DAGNode K => kn.2) (productNodes (K := K) 0 comps).1 _ kn hkn
      with h2 | h2
    · obtain ⟨x, hx, hkx⟩ := h2
      obtain ⟨rt, j, _, hxid⟩ := productNodes_key_shape comps 0 x hx
      rw [hkx] at hk
      have hx1 : x.1 = "aggregate" := hk
      rw [hxid] at hx1
      exact absurd hx1 (transformId_ne_aggregate rt j)
    · rw [sourcesBase_paths sources kn h2, path_cost_nil]
  have main : ∀ (pfr : ProofNode K) (apath : List (Func K)),
      d = ⟨dictInsert ((productNodes (K := K) 0 comps).1.foldl
          (fun acc kn => dictInsert acc kn.1 kn.2)
          (sources.foldl (fun acc sv => dictInsert acc sv.1
            ⟨sv.1, "source", sv.2, Option.none, [], []⟩) []))
          "aggregate" ⟨"aggregate", "aggregate", goalType, apath.head?,
            (productNodes (K := K) 0 comps).2.1, apath⟩,
        sources.map (fun sv => sv.1), "aggregate", tc, cf, pfr⟩ →
      d.total_cost = tc ∧
        nodes_path_cost d = (comps.map (fun a => path_cost a.2.2.path)).sum +
          path_cost apath ∧
        goal_func_cost d = 0 := by
    intro pfr apath hd
    rw [hd]
    refine ⟨rfl, ?_, ?_⟩
    · show dictPathSum (dictInsert ((productNodes (K := K) 0 comps).1.foldl
        (fun acc kn => dictInsert acc kn.1 kn.2)
        (sources.foldl (fun acc sv => dictInsert acc sv.1
          ⟨sv.1, "source", sv.2, Option.none, [], []⟩) []))
        "aggregate" ⟨"aggregate", "aggregate", goalType, apath.head?,
          (productNodes (K := K) 0 comps).2.1, apath⟩) = _
      rw [dictPathSum_dictInsert_zero _ _ _ hagz]
      rw [foldl_dictInsert_pathSum (productNodes (K := K) 0 comps).1 _
        (productNodes_keys_nodup comps 0)
        (fun kn hkn _ => by rw [sourcesBase_paths sources kn hkn, path_cost_nil])]
      rw [dictPathSum_eq_zero (sourcesBase_paths sources)]
      rw [productNodes_path_sum comps 0]
      show (0 : K) + (comps.map (fun a => path_cost a.2.2.path)).sum +
        path_cost apath = _
      ring
    · show goal_func_cost _ = 0
      rw [goal_func_cost]
      dsimp only
      rw [lookup_dictInsert_self]
      cases apath with
      | nil => rfl
      | cons f t => rfl
  rw [build_dag_from_product] at hb
  cases hp : agg.path with
  | nil =>
    rw [hp] at hb
    dsimp only at hb
    injection hb with hb2
    exact main _ [] hb2.symm
  | cons f t =>
    rw [hp] at hb
    dsimp only at hb
    obtain ⟨pf2, hpf2⟩ := make_composition_cons_ok
      (make_tuple (productNodes (K := K) 0 comps).2.2) [agg.proof]
    rw [hpf2] at hb
    dsimp only at hb
    injection hb with hb2
    exact main _ (f :: t) hb2.symm

theorem single_path_to_dag_cost (sid st goalType : String) (r : SynthesisResult K)
    (hr : r.cost = path_cost r.path) :
    DagCostOK (single_path_to_dag sid st goalType r) := by
  have hz : ∀ kn ∈ dictInsert ([] : List (String × DAGNode K)) sid
      ⟨sid, "source", st, Option.none, [], []⟩,
      kn.1 = "goal" → path_cost kn.2.path = 0 := by
    intro kn hkn _
    rcases mem_dictInsert hkn with h2 | h2
    · rw [h2]
      exact path_cost_nil
    · cases h2
  have hz0 : ∀ kn ∈ dictInsert ([] : List (String × DAGNode K)) sid
      ⟨sid, "source", st, Option.none, [], []⟩, kn.2.path = [] := by
    intro kn hkn
    rcases mem_dictInsert hkn with h2 | h2
    · rw [h2]
    · cases h2
  have h1 : nodes_path_cost (single_path_to_dag sid st goalType r) =
      path_cost r.path := by
    show dictPathSum (dictInsert
      (dictInsert [] sid ⟨sid, "source", st, Option.none, [], []⟩)
      "goal" ⟨"goal", "goal", goalType, r.path.getLast?, [sid], r.path⟩) =
        path_cost r.path
    rw [dictPathSum_dictInsert_zero _ _ _ hz, dictPathSum_eq_zero hz0]
    show (0 : K) + path_cost r.path = path_cost r.path
    ring
  have h2g : goal_func_cost (single_path_to_dag sid st goalType r) = 0 := by
    show goal_func_cost ⟨dictInsert
      (dictInsert [] sid ⟨sid, "source", st, Option.none, [], []⟩)
      "goal" ⟨"goal", "goal", goalType, r.path.getLast?, [sid], r.path⟩,
      [sid], "goal", r.cost, r.confidence, r.proof⟩ = 0
    rw [goal_func_cost]
    dsimp only
    rw [lookup_dictInsert_self]
    cases hp : r.path with
    | nil => rfl
    | cons f t => rfl
  show (single_path_to_dag sid st goalType r).total_cost =
    nodes_path_cost (single_path_to_dag sid st goalType r) +
    goal_func_cost (single_path_to_dag sid st goalType r)
  rw [h1, h2g]
  show r.cost = path_cost r.path + 0
  rw [hr]
  ring

theorem strategyAAux_costOK (cat : Catalog K) (sources : List (String × String))
    (goalType : String) (maxCost : K) (fuel : Nat) :
    ∀ (L : List (Func K)) (la : List (SynthesisDAG K)),
      strategyAAux cat sources goalType maxCost fuel L = Except.ok la →
      ∀ d ∈ la, DagCostOK d := by
  intro L
  induction L with
  | nil =>
    intro la hA d hd
    rw [strategyAAux] at hA
    injection hA with hA2
    rw [← hA2] at hd
    cases hd
  | cons g gs ih =>
    intro la hA
    rw [strategyAAux] at hA
    by_cases hm : g.dom.isMulti
    · rw [if_pos hm] at hA
      cases htry : try_synthesize_multiarg_func cat sources goalType g maxCost fuel with
      | error e =>
        rw [htry] at hA
        cases hA
      | ok z =>
        rw [htry] at hA
        cases z with
        | none => exact ih la hA
        | some d0 =>
          cases hrest : strategyAAux cat sources goalType maxCost fuel gs with
          | error e =>
            rw [hrest] at hA
            cases hA
          | ok rest =>
            rw [hrest] at hA
            injection hA with hA2
            intro d hd
            rw [← hA2] at hd
            rcases List.mem_cons.mp hd with hd | hd
            · rw [hd]
              rw [try_synthesize_multiarg_func] at htry
              cases hml : multiargLoop cat sources (maxCost - g.cost) fuel
                  g.dom.domTypes [] g.cost g.conf [] with
              | error e =>
                rw [hml] at htry
                cases htry
              | ok z2 =>
                rw [hml] at htry
                cases z2 with
                | none => cases htry
                | some a =>
                  obtain ⟨args, tcx, cfx⟩ := a
                  dsimp only at htry
                  cases hbd : build_dag_from_multiarg sources goalType g args tcx cfx with
                  | error e =>
                    rw [hbd] at htry
                    cases htry
                  | ok d1 =>
                    rw [hbd] at htry
                    injection htry with htry2
                    injection htry2 with htry3
                    obtain ⟨newA, hnewA, hcosts, htc⟩ := multiargLoop_acct cat sources
                      (maxCost - g.cost) fuel g.dom.domTypes [] g.cost g.conf [] args
                      tcx cfx hml
                    rw [List.nil_append] at hnewA
                    obtain ⟨ht1, ht2, ht3⟩ := build_dag_from_multiarg_cost sources
                      goalType g args tcx cfx d1 hbd
                    show d0.total_cost = nodes_path_cost d0 + goal_func_cost d0
                    rw [← htry3, ht1, ht2, ht3, htc, ← hnewA]
                    rw [sum_cost_eq_sum_path args (fun a => a.2.cost)
                      (fun a => path_cost a.2.path) (by
                        intro a ha
                        exact hcosts a (hnewA ▸ ha))]
                    ring
            · exact ih rest hrest d hd
    · rw [if_neg hm] at hA
      exact ih la hA

theorem strategyBAux_costOK (cat : Catalog K) (sources : List (String × String))
    (goalType : String) (maxCost : K) (fuel : Nat) :
    ∀ (L : List (String × ProductType)) (lb : List (SynthesisDAG K)),
      strategyBAux cat sources goalType maxCost fuel L = Except.ok lb →
      ∀ d ∈ lb, DagCostOK d := by
  intro L
  induction L with
  | nil =>
    intro lb hB d hd
    rw [strategyBAux] at hB
    injection hB with hB2
    rw [← hB2] at hd
    cases hd
  | cons p ps ih =>
    obtain ⟨pname, pt⟩ := p
    intro lb hB
    rw [strategyBAux] at hB
    cases htry : try_synthesize_via_product cat sources goalType pname pt maxCost fuel with
    | error e =>
      rw [htry] at hB
      cases hB
    | ok z =>
      rw [htry] at hB
      cases z with
      | none => exact ih lb hB
      | some d0 =>
        cases hrest : strategyBAux cat sources goalType maxCost fuel ps with
        | error e =>
          rw [hrest] at hB
          cases hB
        | ok rest =>
          rw [hrest] at hB
          injection hB with hB2
          intro d hd
          rw [← hB2] at hd
          rcases List.mem_cons.mp hd with hd | hd
          · rw [hd]
            rw [try_synthesize_via_product] at htry
            cases hsb : synthesize_backward cat pname goalType maxCost 10 fuel with
            | error e =>
              rw [hsb] at htry
              cases htry
            | ok aggs =>
              rw [hsb] at htry
              cases aggs with
              | nil => cases htry
              | cons agg rs =>
                dsimp only at htry
                cases hpl : productLoop cat sources (maxCost - agg.cost) fuel
                    pt.components agg.cost agg.confidence [] with
                | error e =>
                  rw [hpl] at htry
                  cases htry
                | ok z2 =>
                  rw [hpl] at htry
                  cases z2 with
                  | none => cases htry
                  | some a =>
                    obtain ⟨comps, tcx, cfx⟩ := a
                    dsimp only at htry
                    cases hbd : build_dag_from_product sources goalType comps agg
                        tcx cfx with
                    | error e =>
                      rw [hbd] at htry
                      cases htry
                    | ok d1 =>
                      rw [hbd] at htry
                      injection htry with htry2
                      injection htry2 with htry3
                      obtain ⟨newC, hnewC, hcosts, htc⟩ := productLoop_acct cat sources
                        (maxCost - agg.cost) fuel pt.components agg.cost agg.confidence
                        [] comps tcx cfx hpl
                      rw [List.nil_append] at hnewC
                      obtain ⟨ht1, ht2, ht3⟩ := build_dag_from_product_cost sources
                        goalType comps agg tcx cfx d1 hbd
                      have hagg : agg.cost = path_cost agg.path :=
                        (resultGood_of_sb_eq hsb agg (List.mem_cons_self _ _)).1
                      show d0.total_cost = nodes_path_cost d0 + goal_func_cost d0
                      rw [← htry3, ht1, ht2, ht3, htc, ← hnewC]
                      rw [sum_cost_eq_sum_path comps (fun a => a.2.2.cost)
                        (fun a => path_cost a.2.2.path) (by
                          intro a ha
                          exact hcosts a (hnewC ▸ ha))]
                      rw [hagg]
                      ring
          · exact ih rest hrest d hd

theorem strategyCAux_costOK (cat : Catalog K) (goalType : String) (maxCost : K)
    (fuel : Nat) :
    ∀ (L : List (String × String)) (lc : List (SynthesisDAG K)),
      strategyCAux cat goalType maxCost fuel L = Except.ok lc →
      ∀ d ∈ lc, DagCostOK d := by
  intro L
  induction L with
  | nil =>
    intro lc hC d hd
    rw [strategyCAux] at hC
    injection hC with hC2
    rw [← hC2] at hd
    cases hd
  | cons sv tl ih =>
    obtain ⟨sid, st⟩ := sv
    intro lc hC
    rw [strategyCAux] at hC
    cases hsb : synthesize_backward cat st goalType maxCost 10 fuel with
    | error e =>
      rw [hsb] at hC
      cases hC
    | ok rs =>
      rw [hsb] at hC
      cases rs with
      | nil => exact ih lc hC
      | cons r rest0 =>
        cases hrest : strategyCAux cat goalType maxCost fuel tl with
        | error e =>
          rw [hrest] at hC
          cases hC
        | ok rest =>
          rw [hrest] at hC
          injection hC with hC2
          intro d hd
          rw [← hC2] at hd
          rcases List.mem_cons.mp hd with hd | hd
          · rw [hd]
            have hr : r.cost = path_cost r.path :=
              (resultGood_of_sb_eq hsb r (List.mem_cons_self _ _)).1
            exact single_path_to_dag_cost sid st goalType r hr
          · exact ih rest hrest d hd

theorem synthesize_multiarg_full_costOK (cat : Catalog K)
    (sources : List (String × String)) (goalType : String) (maxCost : K)
    (preferMultiarg : Bool) (fuel : Nat) (d : SynthesisDAG K)
    (h : synthesize_multiarg_full cat sources goalType maxCost preferMultiarg fuel =
      Except.ok (some d)) : DagCostOK d := by
  obtain ⟨la, hla⟩ := strategyAAux_ok cat sources goalType maxCost fuel
    (cat.funcsReturning goalType)
  obtain ⟨lb, hlb⟩ := strategyBAux_ok cat sources goalType maxCost fuel cat.productTypes
  obtain ⟨lc, hlc⟩ := strategyCAux_ok cat goalType maxCost fuel sources
  rw [synthesize_multiarg_full, strategyA, hla, strategyB, hlb, strategyC, hlc] at h
  dsimp only at h
  have hmem : d ∈ la ∨ d ∈ lb ∨ d ∈ lc := by
    cases preferMultiarg with
    | true =>
      rw [if_pos rfl] at h
      injection h with h2
      cases hL : sortByKey SynthesisDAG.total_cost la ++
          sortByKey SynthesisDAG.total_cost lb ++
          sortByKey SynthesisDAG.total_cost lc with
      | nil =>
        rw [hL] at h2
        cases h2
      | cons m restL =>
        rw [hL] at h2
        injection h2 with h3
        have hdm : d ∈ sortByKey SynthesisDAG.total_cost la ++
            sortByKey SynthesisDAG.total_cost lb ++
            sortByKey SynthesisDAG.total_cost lc := by
          rw [hL, ← h3]
          exact List.mem_cons_self _ _
        rcases List.mem_append.mp hdm with hdm | hdm
        · rcases List.mem_append.mp hdm with hdm | hdm
          · exact Or.inl (mem_sortByKey.mp hdm)
          · exact Or.inr (Or.inl (mem_sortByKey.mp hdm))
        · exact Or.inr (Or.inr (mem_sortByKey.mp hdm))
    | false =>
      rw [if_neg (by simp)] at h
      injection h with h2
      cases hL : sortByKey SynthesisDAG.total_cost (la ++ lb ++ lc) with
      | nil =>
        rw [hL] at h2
        cases h2
      | cons m restL =>
        rw [hL] at h2
        injection h2 with h3
        have hdm : d ∈ sortByKey SynthesisDAG.total_cost (la ++ lb ++ lc) := by
          rw [hL, ← h3]
          exact List.mem_cons_self _ _
        have hdm2 := mem_sortByKey.mp hdm
        rcases List.mem_append.mp hdm2 with hdm2 | hdm2
        · rcases List.mem_append.mp hdm2 with hdm2 | hdm2
          · exact Or.inl hdm2
          · exact Or.inr (Or.inl hdm2)
        · exact Or.inr (Or.inr hdm2)
  rcases hmem with hmem | hmem | hmem
  · exact strategyAAux_costOK cat sources goalType maxCost fuel _ la hla d hmem
  · exact strategyBAux_costOK cat sources goalType maxCost fuel _ lb hlb d hmem
  · exact strategyCAux_costOK cat goalType maxCost fuel _ lc hlc d hmem

end CostAccounting

section ProvenanceLemmas

/-- Every generation edge names a generated entity id below the gensym
counter. -/
def GenFresh (g : ProvenanceGraph) : Prop :=
  ∀ gn ∈ g.generations, ∃ n, gn.entity_id = PId.gen "entity" n ∧ n < g.counter

theorem track_fields (g : ProvenanceGraph) (c : TrackCall) :
    (track_function_execution g c).1.counter = g.counter + 2 ∧
    (track_function_execution g c).1.generations = g.generations ++
      [⟨PId.gen "entity" (g.counter + 1), PId.gen "activity" g.counter, "output"⟩] ∧
    (track_function_execution g c).1.usages = g.usages ++
      c.input_entity_ids.enum.map
        (fun p => ⟨PId.gen "activity" g.counter, p.2, "input_" ++ toString p.1⟩) ∧
    (track_function_execution g c).1.derivations = g.derivations ++
      c.input_entity_ids.map
        (fun i => ⟨PId.gen "entity" (g.counter + 1), i,
          some (PId.gen "activity" g.counter)⟩) ∧
    (track_function_execution g c).2 = PId.gen "entity" (g.counter + 1) :=
  ⟨rfl, rfl, rfl, rfl, rfl⟩

theorem track_genFresh (g : ProvenanceGraph) (c : TrackCall) (h : GenFresh g) :
    GenFresh (track_function_execution g c).1 := by
  obtain ⟨hcnt, hgen, _, _, _⟩ := track_fields g c
  intro gn hgn
  rw [hgen] at hgn
  rw [hcnt]
  rcases List.mem_append.mp hgn with hgn | hgn
  · obtain ⟨n, hn, hlt⟩ := h gn hgn
    exact ⟨n, hn, by omega⟩
  · rcases List.mem_singleton.mp hgn with hgn
    rw [hgn]
    exact ⟨g.counter + 1, rfl, by omega⟩

theorem runTracker_ext (cs : List TrackCall) : ∀ (g : ProvenanceGraph),
    g.counter ≤ (runTracker g cs).1.counter ∧
    (∃ ext, (runTracker g cs).1.generations = g.generations ++ ext ∧
      ∀ gn ∈ ext, ∃ n, gn.entity_id = PId.gen "entity" n ∧ g.counter ≤ n) ∧
    (∃ ext, (runTracker g cs).1.usages = g.usages ++ ext) ∧
    (∃ ext, (runTracker g cs).1.derivations = g.derivations ++ ext) := by
  induction cs with
  | nil =>
    intro g
    refine ⟨le_refl _, ⟨[], ?_, by intro gn hgn; cases hgn⟩, ⟨[], ?_⟩, ⟨[], ?_⟩⟩
    · show g.generations = g.generations ++ []
      simp
    · show g.usages = g.usages ++ []
      simp
    · show g.derivations = g.derivations ++ []
      simp
  | cons c0 cs ih =>
    intro g
    obtain ⟨hcnt, hgen, husg, hder, _⟩ := track_fields g c0
    obtain ⟨ihcnt, ⟨ge, hge, hgood⟩, ⟨ue, hue⟩, ⟨de, hde⟩⟩ :=
      ih (track_function_execution g c0).1
    refine ⟨?_, ⟨?_, ?_, ?_⟩, ⟨?_, ?_⟩, ⟨?_, ?_⟩⟩
    · show g.counter ≤ (runTracker (track_function_execution g c0).1 cs).1.counter
      omega
    · exact [⟨PId.gen "entity" (g.counter + 1), PId.gen "activity" g.counter,
        "output"⟩] ++ ge
    · show (runTracker (track_function_execution g c0).1 cs).1.generations = _
      rw [hge, hgen, List.append_assoc]
    · intro gn hgn
      rcases List.mem_append.mp hgn with hgn | hgn
      · rcases List.mem_singleton.mp hgn with hgn
        rw [hgn]
        exact ⟨g.counter + 1, rfl, by omega⟩
      · obtain ⟨n, hn, hle⟩ := hgood gn hgn
        rw [hcnt] at hle
        exact ⟨n, hn, by omega⟩
    · exact c0.input_entity_ids.enum.map
        (fun p => ⟨PId.gen "activity" g.counter, p.2, "input_" ++ toString p.1⟩) ++ ue
    · show (runTracker (track_function_execution g c0).1 cs).1.usages = _
      rw [hue, husg, List.append_assoc]
    · exact c0.input_entity_ids.map
        (fun i => ⟨PId.gen "entity" (g.counter + 1), i,
          some (PId.gen "activity" g.counter)⟩) ++ de
    · show (runTracker (track_function_execution g c0).1 cs).1.derivations = _
      rw [hde, hder, List.append_assoc]

theorem mem_enumFrom_of_mem {α : Type} : ∀ (l : List α) (k : Nat) (x : α),
    x ∈ l → ∃ j, (j, x) ∈ l.enumFrom k := by
  intro l
  induction l with
  | nil => intro k x hx; cases hx
  | cons y ys ih =>
    intro k x hx
    rcases List.mem_cons.mp hx with hx | hx
    · exact ⟨k, by rw [hx]; exact List.mem_cons_self _ _⟩
    · obtain ⟨j, hj⟩ := ih (k + 1) x hx
      exact ⟨j, List.mem_cons_of_mem _ hj⟩

theorem runTracker_closure (calls : List TrackCall) : ∀ (g : ProvenanceGraph),
    GenFresh g →
    ∀ (i : Nat) (c : TrackCall), calls[i]? = some c →
    ∃ o a,
      (runTracker g calls).2[i]? = some o ∧
      ((runTracker g calls).1.generations.filter
        (fun gn => decide (gn.entity_id = o))) = [⟨o, a, "output"⟩] ∧
      ∀ inp ∈ c.input_entity_ids,
        (∃ role, (⟨a, inp, role⟩ : UsageR) ∈ (runTracker g calls).1.usages) ∧
        (⟨o, inp, some a⟩ : DerivationR) ∈ (runTracker g calls).1.derivations := by
  induction calls with
  | nil =>
    intro g _ i c hc
    rw [List.getElem?_nil] at hc
    cases hc
  | cons c0 cs ih =>
    intro g hfresh i c hc
    obtain ⟨hcnt, hgen, husg, hder, hout⟩ := track_fields g c0
    have hfresh2 := track_genFresh g c0 hfresh
    cases i with
    | zero =>
      rw [List.getElem?_cons_zero] at hc
      injection hc with hc2
      refine ⟨PId.gen "entity" (g.counter + 1), PId.gen "activity" g.counter, ?_, ?_, ?_⟩
      · show ((track_function_execution g c0).2 ::
          (runTracker (track_function_execution g c0).1 cs).2)[0]? = _
        rw [List.getElem?_cons_zero, hout]
      · obtain ⟨_, ⟨ge, hge, hgood⟩, _, _⟩ := runTracker_ext cs
          (track_function_execution g c0).1
        show (runTracker (track_function_execution g c0).1 cs).1.generations.filter _ = _
        rw [hge, hgen, List.filter_append, List.filter_append]
        have h1 : g.generations.filter
            (fun gn => decide (gn.entity_id = PId.gen "entity" (g.counter + 1))) = [] := by
          rw [List.filter_eq_nil_iff]
          intro gn hgn
          obtain ⟨n, hn, hlt⟩ := hfresh gn hgn
          simp only [decide_eq_true_eq, hn]
          intro heq
          injection heq with _ h2
          omega
        have h2 : ge.filter
            (fun gn => decide (gn.entity_id = PId.gen "entity" (g.counter + 1))) = [] := by
          rw [List.filter_eq_nil_iff]
          intro gn hgn
          obtain ⟨n, hn, hle⟩ := hgood gn hgn
          rw [hcnt] at hle
          simp only [decide_eq_true_eq, hn]
          intro heq
          injection heq with _ h2
          omega
        rw [h1, h2]
        simp
      · intro inp hinp
        rw [← hc2] at hinp
        obtain ⟨_, _, ⟨ue, hue⟩, ⟨de, hde⟩⟩ := runTracker_ext cs
          (track_function_execution g c0).1
        constructor
        · obtain ⟨j, hj⟩ := mem_enumFrom_of_mem c0.input_entity_ids 0 inp hinp
          refine ⟨"input_" ++ toString j, ?_⟩
          show _ ∈ (runTracker (track_function_execution g c0).1 cs).1.usages
          rw [hue, husg]
          refine List.mem_append_left _ (List.mem_append_right _ ?_)
          have : (⟨PId.gen "activity" g.counter, inp, "input_" ++ toString j⟩ : UsageR) =
              (fun p : Nat × PId =>
                (⟨PId.gen "activity" g.counter, p.2, "input_" ++ toString p.1⟩ : UsageR))
                (j, inp) := rfl
          rw [this]
          exact List.mem_map_of_mem _ hj
        · show _ ∈ (runTracker (track_function_execution g c0).1 cs).1.derivations
          rw [hde, hder]
          refine List.mem_append_left _ (List.mem_append_right _ ?_)
          exact List.mem_map_of_mem _ hinp
    | succ i0 =>
      rw [List.getElem?_cons_succ] at hc
      obtain ⟨o, a, ho, hfilter, hrest⟩ := ih (track_function_execution g c0).1
        hfresh2 i0 c hc
      refine ⟨o, a, ?_, hfilter, hrest⟩
      show ((track_function_execution g c0).2 ::
        (runTracker (track_function_execution g c0).1 cs).2)[i0 + 1]? = _
      rw [List.getElem?_cons_succ]
      exact ho

end ProvenanceLemmas

section FormulaRewrite

theorem afterFirstEq_spec : ∀ (pre post : List Char), pre.contains '=' = false →
    afterFirstEq (pre ++ '=' :: post) = post := by
  intro pre
  induction pre with
  | nil =>
    intro post _
    show afterFirstEq ('=' :: post) = post
    rw [afterFirstEq]
    simp
  | cons c t ih =>
    intro post hc
    rw [List.contains_cons, Bool.or_eq_false_iff] at hc
    show afterFirstEq (c :: (t ++ '=' :: post)) = post
    rw [afterFirstEq]
    have hcn : ¬ (c = '=') := by
      intro heq
      rw [heq] at hc
      simp at hc
    rw [if_neg hcn]
    exact ih post hc.2

theorem dropWhile_append_last {p : Char → Bool} (c : Char) (hc : p c = false) :
    ∀ l : List Char, ∃ u, List.dropWhile p (l ++ [c]) = u ++ [c] := by
  intro l
  induction l with
  | nil =>
    refine ⟨[], ?_⟩
    show List.dropWhile p [c] = [] ++ [c]
    rw [List.dropWhile_cons]
    simp [hc]
  | cons x xs ih =>
    show ∃ u, List.dropWhile p (x :: (xs ++ [c])) = u ++ [c]
    rw [List.dropWhile_cons]
    cases hx : p x with
    | true =>
      simp only [if_true]
      exact ih
    | false =>
      simp only [Bool.false_eq_true, if_false]
      exact ⟨x :: xs, by simp⟩

theorem pyStrip_cons_of_not_ws (c : Char) (t : List Char)
    (hc : c.isWhitespace = false) : ∃ tl, pyStrip (c :: t) = c :: tl := by
  rw [pyStrip]
  have h1 : List.dropWhile Char.isWhitespace (c :: t) = c :: t := by
    rw [List.dropWhile_cons]
    simp [hc]
  rw [h1, List.reverse_cons]
  obtain ⟨u, hu⟩ := dropWhile_append_last c hc t.reverse
  rw [hu, List.reverse_append]
  exact ⟨u.reverse, rfl⟩

/-- C10: when a formula expression contains an equals sign, the formula
rewriting step keeps only the stripped text after the first occurrence; in
particular, when the first equals sign is the first character of a
comparison operator, the evaluated text begins with the remainder of that
operator rather than the expression as written. -/
theorem c10_formula_to_python_splits_at_first_equals (e pre post : List Char)
    (he : e = pre ++ '=' :: post) (hp : pre.contains '=' = false) :
    formulaToPythonCore e = pyStrip post ∧
      formula_to_python (String.mk e) = String.mk (pyStrip post) ∧
      (∀ post2, post = '=' :: post2 → ∃ tl, formulaToPythonCore e = '=' :: tl) := by
  have hcontains : e.contains '=' = true := by
    rw [he]
    exact List.elem_eq_true_of_mem
      (List.mem_append_right _ (List.mem_cons_self _ _))
  have h1 : formulaToPythonCore e = pyStrip post := by
    rw [formulaToPythonCore, if_pos hcontains, he, afterFirstEq_spec pre post hp]
  refine ⟨h1, ?_, ?_⟩
  · rw [formula_to_python]
    show String.mk (formulaToPythonCore (String.mk e).data) = _
    show String.mk (formulaToPythonCore e) = _
    rw [h1]
  · intro post2 hpost
    rw [h1, hpost]
    exact pyStrip_cons_of_not_ws '=' post2 (by decide)

end FormulaRewrite

section ExecutorClaims

variable {K : Type} [LinearOrderedCommRing K]

/-- A function whose implementation descriptor is the empty dictionary
(the dataclass default of Func.impl). -/
def emptyImplFunc (K : Type) [LinearOrderedCommRing K] : Func K :=
  ⟨"noImpl", Dom.single "A", "B", 1, 1, Impl.empty K⟩

/-- C6: executing a function whose implementation descriptor is missing
or empty raises the unknown-implementation error naming the defaulted tag
(identity), for every execution context, every oracle and every input,
instead of behaving as the builtin identity. -/
theorem c6_empty_impl_raises [FloorRing K] [ToString K] (ctx : ExecutionContext K)
    (o : Oracles K) (v : Value K) :
    execute_func ctx o (emptyImplFunc K) v =
      Except.error ("Unknown impl type: identity") := rfl

/-- C8: the source-node binding of execute_dag looks the node id up in
source_values; failing that it takes the first entry whose key and the
node type name are related by substring containment in either direction;
failing that it takes the first provided value. -/
theorem c8_source_binding (sv : List (String × Value K)) (nodeId typeName : String) :
    (∀ v, List.lookup nodeId sv = some v →
      bind_source_value sv nodeId typeName = some v) ∧
    (List.lookup nodeId sv = Option.none →
      ∀ kv, sv.find? (fun kv => strIn typeName kv.1 || strIn kv.1 typeName) = some kv →
        bind_source_value sv nodeId typeName = some kv.2) ∧
    (List.lookup nodeId sv = Option.none →
      sv.find? (fun kv => strIn typeName kv.1 || strIn kv.1 typeName) = Option.none →
      bind_source_value sv nodeId typeName = (sv.map (fun kv => kv.2)).head?) := by
  refine ⟨?_, ?_, ?_⟩
  · intro v hv
    rw [bind_source_value, hv]
  · intro hnone kv hkv
    rw [bind_source_value, hnone, hkv]
  · intro hnone hfind
    rw [bind_source_value, hnone, hfind]

end ExecutorClaims

section RemainingClaims

/-- C4 (amended): every result of synthesize_backward has cost equal to
the sum of f.cost over its path and confidence equal to the product of
f.conf over the same path; and every DAG returned by
synthesize_multiarg_full has total_cost equal to the sum of f.cost over
every function appearing in every node path plus the cost of the
goal-node function when the goal node carries a function and an empty
path (the aggregator of the direct multi-arg strategy, which its builder
charges to the total but stores in no node path). -/
theorem c4_cost_and_confidence_accounting {K : Type} [LinearOrderedCommRing K] :
    (∀ (cat : Catalog K) (srcType goalType : String) (maxCost : K)
      (maxResults fuel : Nat) (l : List (SynthesisResult K)),
      synthesize_backward cat srcType goalType maxCost maxResults fuel = Except.ok l →
      ∀ r ∈ l, r.cost = path_cost r.path ∧ r.confidence = path_conf r.path) ∧
    (∀ (cat : Catalog K) (sources : List (String × String)) (goalType : String)
      (maxCost : K) (preferMultiarg : Bool) (fuel : Nat) (d : SynthesisDAG K),
      synthesize_multiarg_full cat sources goalType maxCost preferMultiarg fuel =
        Except.ok (some d) →
      d.total_cost = nodes_path_cost d + goal_func_cost d) := by
  constructor
  · intro cat srcType goalType maxCost maxResults fuel l h r hr
    have hg := resultGood_of_sb_eq h r hr
    exact ⟨hg.1, hg.2.1⟩
  · intro cat sources goalType maxCost preferMultiarg fuel d h
    exact synthesize_multiarg_full_costOK cat sources goalType maxCost preferMultiarg
      fuel d h

/-- C5 (amended): for every result emitted by synthesize_backward, an
empty path carries the identity proof term of the source type, a
one-function path carries the bare function node (make_composition returns
a singleton argument unchanged rather than wrapping it in a composition),
and a path of two or more functions carries a flat composition holding one
function node per path function in source-to-goal order. -/
theorem c5_proof_term_shape {K : Type} [LinearOrderedCommRing K] (cat : Catalog K)
    (srcType goalType : String) (maxCost : K) (maxResults fuel : Nat)
    (l : List (SynthesisResult K))
    (h : synthesize_backward cat srcType goalType maxCost maxResults fuel =
      Except.ok l) :
    ∀ r ∈ l,
      (r.path = [] → r.proof = make_identity srcType) ∧
      (∀ f, r.path = [f] → r.proof = make_func f) ∧
      (∀ f g fs, r.path = f :: g :: fs →
        ∃ s tg, r.proof = ProofNode.comp (r.path.map make_func) s tg) := by
  intro r hr
  obtain ⟨_, _, hshape⟩ := resultGood_of_sb_eq h r hr
  refine ⟨?_, ?_, ?_⟩
  · intro hp
    unfold ProofShape at hshape
    rw [hp] at hshape
    exact hshape
  · intro f hp
    unfold ProofShape at hshape
    rw [hp] at hshape
    exact hshape
  · intro f g fs hp
    unfold ProofShape at hshape
    rw [hp] at hshape
    rw [hp]
    exact hshape

/-- C7: a synthesis that finds no plan yields data, not an exception: both
entry points always return a value (synthesize_backward an ok list, empty
when no path fits the budget, and synthesize_multiarg_full an ok optional
DAG, none when every strategy fails), for every catalog, sources, types,
budget and fuel. -/
theorem c7_no_plan_is_data {K : Type} [LinearOrderedCommRing K] (cat : Catalog K)
    (sources : List (String × String)) (srcType goalType : String) (maxCost : K)
    (maxResults : Nat) (preferMultiarg : Bool) (fuel : Nat) :
    (∃ l, synthesize_backward cat srcType goalType maxCost maxResults fuel =
      Except.ok l) ∧
    (∃ z, synthesize_multiarg_full cat sources goalType maxCost preferMultiarg fuel =
      Except.ok z) := by
  obtain ⟨l, hl, _⟩ := synthesize_backward_ok_good cat srcType goalType maxCost
    maxResults fuel
  exact ⟨⟨l, hl⟩, synthesize_multiarg_full_ok cat sources goalType maxCost
    preferMultiarg fuel⟩

/-- C9: across any sequence of executions tracked from a fresh provenance
graph, every tracked execution produced an output entity with exactly one
wasGeneratedBy edge, pointing at the generating activity, and for every
input entity of that execution the graph holds a used edge from the
activity and a wasDerivedFrom edge from the output. -/
theorem c9_provenance_closure (calls : List TrackCall) (i : Nat) (c : TrackCall)
    (hc : calls[i]? = some c) :
    ∃ o a,
      (runTracker ProvenanceGraph.init calls).2[i]? = some o ∧
      ((runTracker ProvenanceGraph.init calls).1.generations.filter
        (fun gn => decide (gn.entity_id = o))) = [⟨o, a, "output"⟩] ∧
      ∀ inp ∈ c.input_entity_ids,
        (∃ role, (⟨a, inp, role⟩ : UsageR) ∈
          (runTracker ProvenanceGraph.init calls).1.usages) ∧
        (⟨o, inp, some a⟩ : DerivationR) ∈
          (runTracker ProvenanceGraph.init calls).1.derivations := by
  refine runTracker_closure calls ProvenanceGraph.init ?_ i c hc
  intro gn hgn
  cases hgn

end RemainingClaims

section Fixtures

/-- A single-argument function A to B of cost 1 (test fixture). -/
def fAB : Func Int := ⟨"fAB", Dom.single "A", "B", 1, 1, Impl.empty Int⟩

/-- A catalog holding only fAB. -/
def catAB : Catalog Int := ⟨[], [], [fAB]⟩

/-- The one search result from A to B in catAB. -/
def rAB : SynthesisResult Int := ⟨1, 1, [fAB], make_func fAB⟩

/-- A two-argument function (A, B) to Goal (test fixture). -/
def gMulti : Func Int := ⟨"gMulti", Dom.multi ["A", "B"], "Goal", 1, 1, Impl.empty Int⟩

/-- A catalog holding fAB and gMulti. -/
def catC2 : Catalog Int := ⟨[], [], [fAB, gMulti]⟩

/-- A single source s1 of type A. -/
def srcsG1 : List (String × String) := [("s1", "A")]

/-- A one-argument multi-arg function A to Goal (test fixture). -/
def g1 : Func Int := ⟨"g1", Dom.multi ["A"], "Goal", 1, 1, Impl.empty Int⟩

/-- A catalog holding only g1. -/
def catG1 : Catalog Int := ⟨[], [], [g1]⟩

/-- The DAG synthesized for Goal from s1 : A in catG1. -/
def dagG1 : SynthesisDAG Int :=
  match synthesize_multiarg_full catG1 srcsG1 "Goal" 10 true 20 with
  | Except.ok (some d) => d
  | _ => ⟨[], [], "", 0, 0, make_identity ""⟩

/-- The empty catalog. -/
def catEmpty : Catalog Int := ⟨[], [], []⟩

end Fixtures

section ClaimWitnesses

/-- C1 witness: on the empty catalog with no sources all three strategies
are empty and the selection returns none. -/
theorem c1_selection_witness :
    synthesize_multiarg_full catEmpty [] "Goal" (0 : Int) true 0 =
      Except.ok Option.none := by
  obtain ⟨r, hr, hiff, _⟩ := c1_strategy_selection catEmpty [] "Goal" (0 : Int)
    true 0 [] [] [] rfl rfl rfl
  rw [hiff.mpr ⟨rfl, rfl, rfl⟩] at hr
  exact hr

/-- C2 counterexample: with the single source s1 : A, a catalog holding
fAB : A to B and gMulti : (A, B) to Goal, the Strategy A argument loop
supplies the first argument directly from s1, consuming it, and then
supplies the second argument by a backward search from the very same
consumed source: the source is used again for a later argument. -/
theorem c2_source_reuse_counterexample :
    multiargLoop catC2 srcsG1 ((10 : Int) - gMulti.cost) 20 gMulti.dom.domTypes []
        gMulti.cost gMulti.conf [] =
      Except.ok (some ([("s1", identityResult "A"), ("s1", rAB)], 2, 1)) ∧
    ¬ (([("s1", identityResult "A"), ("s1", rAB)].map
        (fun a : String × SynthesisResult Int => a.1)).Nodup) := by
  exact ⟨rfl, by decide⟩

/-- C2 witness: the argument list of the counterexample run satisfies the
amended supply discipline (direct match consuming s1, then a search from
s1 within the remaining budget). -/
theorem c2_strategyA_witness :
    ArgsOK catC2 srcsG1 20 ((10 : Int) - gMulti.cost) gMulti.dom.domTypes []
      gMulti.cost [("s1", identityResult "A"), ("s1", rAB)] :=
  c2_strategyA_argument_supply catC2 srcsG1 gMulti 10 20
    [("s1", identityResult "A"), ("s1", rAB)] 2 1 rfl

/-- C3 witness: the search over catAB from A to B discovers the single
result rAB and synthesize_backward returns its stable sort by cost. -/
theorem c3_ordering_witness :
    synthesize_backward catAB "A" "B" (8 : Int) 10 20 =
      Except.ok (sortByKey SynthesisResult.cost [rAB]) :=
  (c3_result_ordering catAB "A" "B" (8 : Int) 10 20 [rAB] (by rfl)).1

/-- C4 counterexample: the DAG synthesized for Goal from s1 : A in catG1
has total cost 1 (the cost of the aggregator g1) while the sum of the
function costs over every node path is 0: the original per-path sum does
not account for the goal-node function. -/
theorem c4_goal_cost_counterexample :
    synthesize_multiarg_full catG1 srcsG1 "Goal" (10 : Int) true 20 =
      Except.ok (some dagG1) ∧
    dagG1.total_cost = 1 ∧ nodes_path_cost dagG1 = 0 := by
  exact ⟨rfl, rfl, by decide⟩

/-- C4 witness: the accounting theorem instantiated on catAB (backward
results) and on the catG1 run (DAG totals). -/
theorem c4_cost_witness :
    (rAB.cost = path_cost rAB.path ∧ rAB.confidence = path_conf rAB.path) ∧
    dagG1.total_cost = nodes_path_cost dagG1 + goal_func_cost dagG1 :=
  ⟨(c4_cost_and_confidence_accounting.1 catAB "A" "B" (8 : Int) 10 20
      (sortByKey SynthesisResult.cost [rAB]) (by rfl) rAB
      (mem_sortByKey.mpr (List.mem_cons_self _ _))),
   (c4_cost_and_confidence_accounting.2 catG1 srcsG1 "Goal" (10 : Int) true 20
      dagG1 rfl)⟩

/-- C5 counterexample: the single result of the search from A to B in
catAB has the one-function path [fAB] and its proof term is the bare
function node, not a composition node. -/
theorem c5_singleton_counterexample :
    synthesize_backward catAB "A" "B" (8 : Int) 10 20 = Except.ok [rAB] ∧
    rAB.path = [fAB] ∧
    rAB.proof = make_func fAB ∧
    (match rAB.proof with
     | ProofNode.comp _ _ _ => False
     | _ => True) :=
  ⟨rfl, rfl, rfl, True.intro⟩

/-- C5 witness: the shape theorem applied to the singleton-path result of
catAB. -/
theorem c5_shape_witness : rAB.proof = make_func fAB :=
  (c5_proof_term_shape catAB "A" "B" (8 : Int) 10 20 [rAB] (by rfl) rAB
    (List.mem_cons_self _ _)).2.1 fAB rfl

/-- C9 witness: tracking one execution with one input from the fresh graph
yields an output entity with exactly one generation and the used and
derivation edges for the input. -/
theorem c9_provenance_witness :
    ∃ o a,
      (runTracker ProvenanceGraph.init
        [⟨"f", "A -> B", [PId.named "x"], "7", "B"⟩]).2[0]? = some o ∧
      ((runTracker ProvenanceGraph.init
        [⟨"f", "A -> B", [PId.named "x"], "7", "B"⟩]).1.generations.filter
        (fun gn => decide (gn.entity_id = o))) = [⟨o, a, "output"⟩] ∧
      ∀ inp ∈ (⟨"f", "A -> B", [PId.named "x"], "7", "B"⟩ : TrackCall).input_entity_ids,
        (∃ role, (⟨a, inp, role⟩ : UsageR) ∈
          (runTracker ProvenanceGraph.init
            [⟨"f", "A -> B", [PId.named "x"], "7", "B"⟩]).1.usages) ∧
        (⟨o, inp, some a⟩ : DerivationR) ∈
          (runTracker ProvenanceGraph.init
            [⟨"f", "A -> B", [PId.named "x"], "7", "B"⟩]).1.derivations :=
  c9_provenance_closure [⟨"f", "A -> B", [PId.named "x"], "7", "B"⟩] 0
    ⟨"f", "A -> B", [PId.named "x"], "7", "B"⟩ rfl

/-- C10 witness: the formula x == 3 is rewritten to the text = 3, which
begins with the remainder of the comparison operator. -/
theorem c10_formula_witness :
    formulaToPythonCore ("x == 3").data = ("= 3").data ∧
    ∃ tl, formulaToPythonCore ("x == 3").data = '=' :: tl := by
  have h := c10_formula_to_python_splits_at_first_equals ("x == 3").data
    ("x ").data ("= 3").data rfl (by decide)
  refine ⟨?_, h.2.2 (" 3").data rfl⟩
  rw [h.1]
  decide

end ClaimWitnesses

end TypeSynth
